import Mathlib

/-!
Verification of the viaconstructor geometry-and-toolpath kernel.

The development shallowly embeds the kernel's code:

* `VC` — the geometric primitives and nesting analyzer of the module
  `viaconstructor/calc.py`.  That module itself is not part of the source
  tree here (only its test suite `tests/test_calc.py` and its callers are),
  so these definitions are modelled from the specification, reconciled with
  the behaviour pinned down by the in-repo tests.  Exact rational arithmetic
  (`ℚ`) stands in for IEEE doubles: every primitive in this layer is pure
  rational arithmetic (no square roots or trigonometry), so the embedding is
  exact on the fixture inputs.  Boolean-returning Python functions become
  decidable predicates.
* `VCR` — the metric primitives (`calc_distance`, `angle_of_line`), which do
  involve square roots and `atan2`; these are embedded over `ℝ`.
* `VG` — the toolpath sequencer `polylines2gcode` of
  `viaconstructor/gcode.py` (present in the source tree), embedded over `ℝ`
  with the emitted G-code lines represented as a structured list.
-/

namespace VC

/-- Point record; drawing points are 2- or 3-tuples of floats in the source,
modelled as rationals with an always-present `z` (0 when absent). -/
structure Pt where
  x : ℚ
  y : ℚ
  z : ℚ
deriving DecidableEq, Repr

/-- Half-to-even rounding of a rational to an integer, matching Python's
`round` on exact ties. -/
def rhe (q : ℚ) : ℤ :=
  if q - ⌊q⌋ < 1/2 then ⌊q⌋
  else if 1/2 < q - ⌊q⌋ then ⌊q⌋ + 1
  else if 2 ∣ ⌊q⌋ then ⌊q⌋ else ⌊q⌋ + 1

/-- Rounding to two decimal places (Python `round(x, 2)`). -/
def round2 (q : ℚ) : ℚ := (rhe (q * 100) : ℚ) / 100

/-- Modelled from the spec: `fuzzyMatch(p1,p2)` of the absent `calc.py` —
independent per-axis comparison of the two coordinates.  The spec's literal
`|dx| < 0.01` threshold contradicts the in-repo fixture
`fuzy_match((123.009, 345.002), (123.002, 345.001)) = False`
(`|dx| = 0.007 < 0.01`), so the per-axis comparison is realised as equality
after rounding each coordinate to two decimals, which reproduces every
fixture of `test_fuzy_match`. -/
def fuzy_match (p1 p2 : Pt) : Prop :=
  round2 p1.x = round2 p2.x ∧ round2 p1.y = round2 p2.y

instance (p1 p2 : Pt) : Decidable (fuzy_match p1 p2) := by
  unfold fuzy_match; infer_instance

/-- Modelled from the spec: `isBetween(p1,p2,p3)` of the absent `calc.py` —
true iff `p1` lies on the segment `p2`–`p3` (exact collinearity plus range
check, endpoints included). -/
def is_between (p1 p2 p3 : Pt) : Prop :=
  (p3.x - p2.x) * (p1.y - p2.y) - (p3.y - p2.y) * (p1.x - p2.x) = 0 ∧
  0 ≤ (p1.x - p2.x) * (p3.x - p2.x) + (p1.y - p2.y) * (p3.y - p2.y) ∧
  (p1.x - p2.x) * (p3.x - p2.x) + (p1.y - p2.y) * (p3.y - p2.y) ≤
    (p3.x - p2.x) ^ 2 + (p3.y - p2.y) ^ 2

instance (p1 p2 p3 : Pt) : Decidable (is_between p1 p2 p3) := by
  unfold is_between; infer_instance

/-- Raw drawing segment: start point, end point and arc bulge. -/
structure Segment where
  start : Pt
  endp : Pt
  bulge : ℚ
deriving DecidableEq, Repr

/-- Two segments are duplicates when their endpoint pairs match as a set
under fuzzy equality. -/
def seg_dup (s t : Segment) : Prop :=
  (fuzy_match s.start t.start ∧ fuzy_match s.endp t.endp) ∨
  (fuzy_match s.start t.endp ∧ fuzy_match s.endp t.start)

instance (s t : Segment) : Decidable (seg_dup s t) := by
  unfold seg_dup; infer_instance

/-- Segment `s` is covered by segment `t`: both endpoints of `s` lie on
`t` (`is_between`).  Exact duplicates are the special case `s = t`. -/
def seg_covered (s t : Segment) : Prop :=
  is_between s.start t.start t.endp ∧ is_between s.endp t.start t.endp

instance (s t : Segment) : Decidable (seg_covered s t) := by
  unfold seg_covered; infer_instance

/-- Drop condition of the segment cleaner: an earlier segment is removed
when a later one duplicates or covers it. -/
def seg_redundant (s t : Segment) : Prop := seg_dup s t ∨ seg_covered s t

instance (s t : Segment) : Decidable (seg_redundant s t) := by
  unfold seg_redundant; infer_instance

/-- Modelled from the spec: `cleanSegments` of the absent `calc.py`.  A
segment is dropped exactly when a later segment duplicates or covers it
(so the later occurrence is kept); all other segments are preserved in
their original relative order.  The spec's §4.2 claim that only exact
duplicates are removed contradicts the in-repo fixture in
`test_clean_segments`, where the collinear segment (100,100)–(200,200)
is removed because it is covered by the later segment (0,0)–(300,300);
the spec's §7 malformed-geometry policy (degenerate collinear overlays
dropped by the cleaner) matches that fixture and is modelled here. -/
def clean_segments : List Segment → List Segment
  | [] => []
  | s :: rest =>
    if ∃ t ∈ rest, seg_redundant s t then clean_segments rest
    else s :: clean_segments rest

/-- Flip one segment: swap start and end, negate the bulge. -/
def seg_flip (s : Segment) : Segment := ⟨s.endp, s.start, -s.bulge⟩

/-- Modelled from the spec: `reverseObject` of the absent `calc.py` —
reverses the segment order, swaps each segment's start/end and negates each
bulge.  (The spec's `-0.0` artifact of float negation has no counterpart in
`ℚ`, where `-0 = 0`.) -/
def reverse_object (segments : List Segment) : List Segment :=
  (segments.map seg_flip).reverse

/-- Contour object: a chain of segments plus its closed flag. -/
structure Obj where
  segments : List Segment
  closed : Bool
deriving DecidableEq, Repr

/-- Crossing test of the even-odd ray cast for a single edge: the
horizontal ray from `p` to the right crosses the chord of `seg`. -/
def ray_crosses (p : Pt) (seg : Segment) : Prop :=
  ((p.y < seg.start.y ∧ ¬ p.y < seg.endp.y) ∨
   (¬ p.y < seg.start.y ∧ p.y < seg.endp.y)) ∧
  p.x <
    (seg.endp.x - seg.start.x) * (p.y - seg.start.y) /
        (seg.endp.y - seg.start.y) +
      seg.start.x

instance (p : Pt) (seg : Segment) : Decidable (ray_crosses p seg) := by
  unfold ray_crosses; infer_instance

/-- Modelled from the spec: `is_inside_polygon` of the absent `calc.py` —
even-odd ray casting against the object's segment chain, arcs taken as
chords of their endpoints. -/
def is_inside_polygon (o : Obj) (p : Pt) : Bool :=
  o.segments.foldl
    (fun inside seg => if ray_crosses p seg then !inside else inside)
    false

/-- Modelled from the spec: `findOuterObjects` of the absent `calc.py` —
every closed object, excluding the ids in `exclude`, whose polygon contains
`point`. -/
def find_outer_objects (objects : List (ℕ × Obj)) (point : Pt)
    (exclude : List ℕ) : List ℕ :=
  objects.filterMap fun pr =>
    if pr.1 ∉ exclude ∧ pr.2.closed = true ∧ is_inside_polygon pr.2 point = true
    then some pr.1 else none

/-- Representative point of an object: the start of its first segment. -/
def first_point (o : Obj) : Pt :=
  match o.segments with
  | [] => ⟨0, 0, 0⟩
  | s :: _ => s.start

/-- Nesting depth of one object: how many other closed objects contain its
representative point. -/
def outer_count (objects : List (ℕ × Obj)) (pr : ℕ × Obj) : ℕ :=
  (find_outer_objects objects (first_point pr.2) [pr.1]).length

/-- Modelled from the spec: `findToolOffsets` of the absent `calc.py`.
For each closed object the parity of its nesting depth selects the offset
mode; open objects get "none".  The spec's §4.4 and §8 label clauses are
mutually inconsistent (§4.4 gives depth-0 objects "none" while §8 gives the
outer fixture object "inside"), so the parity orientation follows the
recorded post-state of the in-repo fixture `test_find_tool_offsets`
(outer object at even depth 0 → "outside", directly nested object at odd
depth 1 → "inside").  Returns the assignment list together with the maximum
nesting depth `maxOuter`. -/
def find_tool_offsets (objects : List (ℕ × Obj)) :
    List (ℕ × String) × ℕ :=
  (objects.map fun pr =>
     (pr.1,
      if pr.2.closed then
        (if outer_count objects pr % 2 = 0 then "outside" else "inside")
      else "none"),
   objects.foldl
     (fun m pr => if pr.2.closed then max m (outer_count objects pr) else m)
     0)

/-- Embedding of the step clamp in `ViaConstructor.global_changed`
(`viaconstructor.py` lines 1470-1471): a non-negative step-down value is
replaced by `-0.05`; any other value is stored unchanged. -/
def global_changed_step (step : ℚ) : ℚ :=
  if 0 ≤ step then -(5/100) else step

end VC

namespace VCR

/-- Modelled from the spec: the two-argument arctangent used by
`angleOfLine` of the absent `calc.py` (`math.atan2(dy, dx)`). -/
noncomputable def atan2 (y x : ℝ) : ℝ :=
  if 0 < x then Real.arctan (y / x)
  else if x < 0 then
    (if 0 ≤ y then Real.arctan (y / x) + Real.pi
     else Real.arctan (y / x) - Real.pi)
  else
    (if 0 < y then Real.pi / 2 else if y < 0 then -(Real.pi / 2) else 0)

/-- Modelled from the spec: `angleOfLine(p1,p2)` of the absent `calc.py` —
`atan2(dy, dx)` of the difference vector from `p1` to `p2`. -/
noncomputable def angle_of_line (p1 p2 : ℝ × ℝ) : ℝ :=
  atan2 (p2.2 - p1.2) (p2.1 - p1.1)

/-- Modelled from the spec: `calc_distance(p1,p2)` of the absent `calc.py` —
the Euclidean norm of the difference vector. -/
noncomputable def calc_distance (p1 p2 : ℝ × ℝ) : ℝ :=
  Real.sqrt ((p1.1 - p2.1) ^ 2 + (p1.2 - p2.2) ^ 2)

end VCR

namespace VG

/-- Vertex of an offset polyline: x, y and the bulge of the segment that
starts at this vertex (the triples produced by `vertex2points`). -/
structure Vtx where
  x : ℝ
  y : ℝ
  bulge : ℝ

/-- Modelled from the spec: `calc_distance` as used by `polylines2gcode`
(Euclidean distance in the XY plane; the third tuple component is
ignored). -/
noncomputable def calc_distance (a b : Vtx) : ℝ :=
  Real.sqrt ((a.x - b.x) ^ 2 + (a.y - b.y) ^ 2)

/-- Pointwise zip of the three parallel coordinate lists. -/
def zip3 : List ℝ → List ℝ → List ℝ → List Vtx
  | x :: xs, y :: ys, b :: bs => ⟨x, y, b⟩ :: zip3 xs ys bs
  | _, _, _ => []

/-- Modelled from the spec: `vertex2points` of the absent `calc.py` —
turns the parallel arrays `(xs, ys, bulges)` of an offset polyline into a
list of vertex triples. -/
def vertex2points (v : List ℝ × List ℝ × List ℝ) : List Vtx :=
  zip3 v.1 v.2.1 v.2.2

/-- Modelled from the spec: `rotate_list` of the absent `calc.py`
(fixture: `rotate_list [1,2,3,4] 2 = [3,4,1,2]`). -/
def rotate_list {α : Type} (l : List α) (k : ℕ) : List α :=
  l.drop k ++ l.take k

/-- Offset polyline as consumed by `polylines2gcode`: parallel vertex
arrays, closedness, nesting level and the per-object mill parameters. -/
structure Polyline where
  xdata : List ℝ
  ydata : List ℝ
  bdata : List ℝ
  closed : Bool
  level : ℤ
  isPocket : Bool
  toolOffset : String
  millDepth : ℝ
  millStep : ℝ
  millHelix : Bool
  millActive : Bool

/-- Vertex list of a polyline (`vertex2points(offset.vertex_data())`). -/
def Polyline.points (pl : Polyline) : List Vtx :=
  vertex2points (pl.xdata, pl.ydata, pl.bdata)

/-- Placeholder polyline used for the (unreachable) failed dictionary
lookup of a selected id. -/
def empty_polyline : Polyline :=
  ⟨[], [], [], false, 0, false, "", 0, 0, false, false⟩

/-- Global machine parameters read by `polylines2gcode`. -/
structure Setup where
  fastMoveZ : ℝ
  rateV : ℝ
  rateH : ℝ
  diameter : ℝ
  g64 : ℝ
  backHome : Bool

/-- Whole sequencer input: the offset polylines keyed by object id (in
dictionary order), the maximum nesting level, and the setup. -/
structure Project where
  offsets : List (ℕ × Polyline)
  maxOuter : ℕ
  setup : Setup

/-- One emitted G-code line.  Lines that carry no information relevant to
the verified claims (pure comments, modal setup codes, spindle and tool
commands) are collapsed into the payload-free constructor `other`; the
object-header comments carrying the level, order and object id, and every
motion, feed and depth line keep their payloads. -/
inductive GLine where
  | other : GLine
  | commentLevel : ℤ → GLine
  | commentOrder : ℕ → GLine
  | commentObject : ℕ → GLine
  | commentDepth : ℝ → GLine
  | feed : ℝ → GLine
  | rapidZ : ℝ → GLine
  | rapidXY : ℝ → ℝ → GLine
  | linearZ : ℝ → GLine
  | linear : ℝ → ℝ → ℝ → GLine
  | arcCW : ℝ → ℝ → ℝ → ℝ → ℝ → GLine
  | arcCCW : ℝ → ℝ → ℝ → ℝ → ℝ → GLine

/-- Rounding to six decimal places, the shallow embedding of the
`round(x, 6)` calls of `gcode.py`.  (Mathlib's `round` resolves exact
half-way cases upward where Python rounds half to even; no claim exercises
an exact tie at the seventh decimal.) -/
noncomputable def round6 (x : ℝ) : ℝ :=
  ((round (x * 1000000) : ℤ) : ℝ) / 1000000

/-- Modelled from the spec: the centre computed by the external
`ezdxf.math.bulge_to_arc(start, end, bulge)` call — the standard
arc-from-bulge reconstruction (`bulgeToArc` of the spec), whose centre is
the chord midpoint displaced along the chord normal by
`(1 - b^2) / (4 b)` times the chord length. -/
noncomputable def bulge_center (s e : Vtx) (b : ℝ) : ℝ × ℝ :=
  ((s.x + e.x) / 2 - (1 - b ^ 2) / (4 * b) * (e.y - s.y),
   (s.y + e.y) / 2 + (1 - b ^ 2) / (4 * b) * (e.x - s.x))

/-- Emission of one vertex-to-vertex move: `G03` (counter-clockwise arc)
for positive bulge of the departed vertex, `G02` (clockwise arc) for
negative bulge, `G01` (linear) otherwise; coordinates and depth rounded to
six decimals as in the source.  (The source's dead `arc_mode_r` branch,
never enabled, is not modelled.) -/
noncomputable def move_line (last pt : Vtx) (setDepth : ℝ) : GLine :=
  if 0 < last.bulge then
    GLine.arcCCW (round6 pt.x) (round6 pt.y) (round6 setDepth)
      (round6 ((bulge_center last pt last.bulge).1 - last.x))
      (round6 ((bulge_center last pt last.bulge).2 - last.y))
  else if last.bulge < 0 then
    GLine.arcCW (round6 pt.x) (round6 pt.y) (round6 setDepth)
      (round6 ((bulge_center last pt last.bulge).1 - last.x))
      (round6 ((bulge_center last pt last.bulge).2 - last.y))
  else
    GLine.linear (round6 pt.x) (round6 pt.y) (round6 setDepth)

/-- Depth of the cut at travelled distance `trav`: the helix mode
interpolates linearly along the cumulative path distance from the previous
pass depth to the current one; otherwise the pass depth is used flat. -/
noncomputable def set_depth (helix : Bool) (objDist dep lastDep trav : ℝ) : ℝ :=
  if helix then lastDep + trav / objDist * (dep - lastDep) else dep

/-- Core of the per-pass vertex loop of `polylines2gcode`: walks the vertex
list accumulating the travelled distance, emitting one move per vertex
(including the zero-length first move of the source loop), and returns the
emitted lines together with the final travelled distance and final
vertex. -/
noncomputable def moves_core (helix : Bool) (objDist dep lastDep : ℝ) :
    ℝ → Vtx → List Vtx → List GLine × ℝ × Vtx
  | trav, last, [] => ([], trav, last)
  | trav, last, p :: rest =>
    let trav' := trav + calc_distance p last
    let r := moves_core helix objDist dep lastDep trav' p rest
    (move_line last p (set_depth helix objDist dep lastDep trav') :: r.1,
     r.2)

/-- One pass of the depth loop: the clamped pass depth, the previous pass
depth (`last_depth`, 0 before the first pass) and whether the helix flag
was still set when the pass was emitted. -/
structure Pass where
  depth : ℝ
  lastDepth : ℝ
  helix : Bool

/-- The depth-stepping loop of `polylines2gcode` as the list of emitted
passes: the running depth starts at the object's `step`, is clamped at the
object's target `depth`, and advances by `step` after each unclamped pass;
when the clamped depth reaches the target with the helix flag still set,
the flag is cleared and one further (flat) pass at the target depth is
emitted.  The source loop does not terminate when `step ≥ 0` and the
target is still below the running depth; in that (never configured) case
the embedding stops after the current pass. -/
noncomputable def clampd (millDepth depth : ℝ) : ℝ :=
  if depth < millDepth then millDepth else depth

/-- The depth-stepping loop of `polylines2gcode` as the list of emitted
passes: the running depth starts at the object's `step`, is clamped at the
object's target `depth`, and advances by `step` after each unclamped pass;
when the clamped depth reaches the target with the helix flag still set,
the flag is cleared and one further (flat) pass at the target depth is
emitted.  The source loop does not terminate when `step ≥ 0` and the
target is still below the running depth; in that (never configured) case
the embedding stops after the current pass. -/
noncomputable def passes (millDepth millStep depth lastDepth : ℝ)
    (helix : Bool) : List Pass :=
  Pass.mk (clampd millDepth depth) lastDepth helix ::
    (if clampd millDepth depth ≤ millDepth then
      (if helix then
        passes millDepth millStep (clampd millDepth depth)
          (clampd millDepth depth) false
      else [])
    else if h : millStep < 0 then
      passes millDepth millStep (clampd millDepth depth + millStep)
        (clampd millDepth depth) helix
    else [])
termination_by
  Int.toNat ⌈(depth - millDepth) / (-millStep)⌉ * 2 + (if helix then 1 else 0)
decreasing_by
  · rename_i hle hhx
    have hge : millDepth ≤ clampd millDepth depth := by
      unfold clampd
      split
      · exact le_rfl
      · exact not_lt.mp (by assumption)
    have hd : clampd millDepth depth = millDepth := le_antisymm hle hge
    rw [hd]
    simp only [sub_self, zero_div, Int.ceil_zero, Int.toNat_zero, hhx,
      if_true, if_false, eq_self_iff_true]
    omega
  · rename_i hgt
    have hnl : ¬ depth < millDepth := by
      intro hc
      apply hgt
      rw [show clampd millDepth depth = millDepth from by
        unfold clampd; exact if_pos hc]
    have hcd : clampd millDepth depth = depth := by
      unfold clampd; exact if_neg hnl
    rw [hcd] at hgt ⊢
    have hs : millStep ≠ 0 := ne_of_lt h
    have hs2 : (-millStep) ≠ 0 := neg_ne_zero.mpr hs
    have harg : (depth + millStep - millDepth) / (-millStep)
        = (depth - millDepth) / (-millStep) - 1 := by
      rw [div_sub_one hs2]
      congr 1
      ring
    have hceil : ⌈(depth + millStep - millDepth) / (-millStep)⌉
        = ⌈(depth - millDepth) / (-millStep)⌉ - 1 := by
      rw [harg, Int.ceil_sub_one]
    have hpos : (0 : ℝ) < (depth - millDepth) / (-millStep) := by
      apply div_pos
      · linarith [lt_of_not_le hgt]
      · linarith
    have hone : (1 : ℤ) ≤ ⌈(depth - millDepth) / (-millStep)⌉ := by
      have := Int.ceil_pos.mpr hpos
      omega
    rw [hceil]
    omega

/-- Lines emitted for one depth pass of one object: the depth comment, the
approach rapids (only for open objects, which re-approach on every pass),
the vertical feed, the plunge (`G01 Z`: previous depth when ramping
helically, pass depth otherwise), the horizontal feed, the vertex loop and,
for closed objects, the closing move back to the first vertex. -/
noncomputable def pass_lines (setup : Setup) (pts : List Vtx) (closed : Bool)
    (objDist : ℝ) (ps : Pass) : List GLine :=
  match pts with
  | [] => []
  | p0 :: rest =>
    GLine.commentDepth ps.depth ::
    ((if closed then ([] : List GLine)
      else [GLine.rapidZ (round6 setup.fastMoveZ), GLine.rapidXY p0.x p0.y]) ++
     [GLine.feed setup.rateV,
      GLine.linearZ (if ps.helix then ps.lastDepth else ps.depth),
      GLine.feed setup.rateH] ++
     (moves_core ps.helix objDist ps.depth ps.lastDepth 0 p0 (p0 :: rest)).1 ++
     (if closed then
       [move_line (moves_core ps.helix objDist ps.depth ps.lastDepth 0 p0
            (p0 :: rest)).2.2 p0
          (set_depth ps.helix objDist ps.depth ps.lastDepth
            ((moves_core ps.helix objDist ps.depth ps.lastDepth 0 p0
                (p0 :: rest)).2.1 +
              calc_distance p0
                (moves_core ps.helix objDist ps.depth ps.lastDepth 0 p0
                  (p0 :: rest)).2.2))]
      else []))

/-- Total path length of the vertex loop as accumulated by the source
(`obj_distance`): the sum of consecutive distances starting from the first
vertex (whose self-distance contributes 0), plus the closing edge for a
closed object. -/
noncomputable def path_length (pts : List Vtx) (closed : Bool) : ℝ :=
  match pts with
  | [] => 0
  | p0 :: rest =>
    (moves_core false 1 0 0 0 p0 (p0 :: rest)).2.1 +
    (if closed then calc_distance ((p0 :: rest).getLastD p0) p0 else 0)

/-- Reorientation of a selected polyline's vertex list: a closed polyline
is rotated to start at the nearest vertex; an open polyline approached from
its far end is reversed coordinate-wise, with bulges reversed, rotated by
one and negated, exactly as in the source. -/
noncomputable def reorient (pl : Polyline) (nearestPoint : ℕ) : List Vtx :=
  if pl.closed then rotate_list pl.points nearestPoint
  else if nearestPoint ≠ 0 then
    zip3 pl.xdata.reverse pl.ydata.reverse
      ((rotate_list pl.bdata.reverse 1).map fun b => -b)
  else pl.points

/-- Lines of one milled object (header comments, approach rapids for a
closed object, all depth passes, retract rapid) together with the exit
position that becomes the new tool position: the entry vertex for a closed
object, the final vertex for an open one. -/
noncomputable def object_block (setup : Setup) (level : ℤ) (order : ℕ)
    (idx : ℕ) (pl : Polyline) (nearestPoint : ℕ) : List GLine × Vtx :=
  match reorient pl nearestPoint with
  | [] => ([], ⟨0, 0, 0⟩)
  | p0 :: rest =>
    let pts := p0 :: rest
    let objDist := path_length pts pl.closed
    ((GLine.other :: GLine.other :: GLine.commentLevel level ::
        GLine.commentOrder order :: GLine.commentObject idx ::
        GLine.other :: GLine.other :: GLine.other :: GLine.other ::
        GLine.other ::
      ((if pl.toolOffset ≠ "" then [GLine.other] else []) ++
       [GLine.other] ++
       (if pl.closed then
         [GLine.rapidZ (round6 setup.fastMoveZ), GLine.rapidXY p0.x p0.y]
        else []) ++
       ((passes pl.millDepth pl.millStep pl.millStep 0 pl.millHelix).map
          (pass_lines setup pts pl.closed objDist)).flatten ++
       [GLine.rapidZ (round6 setup.fastMoveZ)])),
     if pl.closed then p0 else pts.getLastD p0)

/-- One comparison step of the nearest-candidate fold: a candidate replaces
the accumulator only when its distance is strictly smaller (`dist <
nearest_dist` in the source), so earlier candidates win ties. -/
noncomputable def sel_step (acc : Option (ℝ × ℕ × ℕ)) (c : ℝ × ℕ × ℕ) :
    Option (ℝ × ℕ × ℕ) :=
  match acc with
  | none => some c
  | some a => if c.1 < a.1 then some c else acc

/-- Candidate list of one eligible polyline, in the source's probe order:
every vertex for a closed polyline, the first and the last vertex for an
open one (each candidate records distance, object id and vertex index). -/
noncomputable def candidates_for (lastPos : Vtx) (idx : ℕ) (pl : Polyline) :
    List (ℝ × ℕ × ℕ) :=
  if pl.closed then
    pl.points.enum.map fun pr => (calc_distance lastPos pr.2, idx, pr.1)
  else
    match pl.points with
    | [] => []
    | p0 :: rest =>
      [(calc_distance lastPos p0, idx, 0),
       (calc_distance lastPos ((p0 :: rest).getLastD p0), idx,
        (p0 :: rest).length - 1)]

/-- The nearest-object scan of `polylines2gcode`: fold over all polylines
in dictionary order, considering only those not yet milled, at the level
being processed and with an active mill flag; returns the winning
(distance, object id, vertex index) triple, or `none` when no eligible
polyline with a vertex exists. -/
noncomputable def select_nearest (lastPos : Vtx) (level : ℤ)
    (milled : List ℕ) (polylines : List (ℕ × Polyline)) :
    Option (ℝ × ℕ × ℕ) :=
  polylines.foldl
    (fun acc pr =>
      if pr.1 ∉ milled ∧ pr.2.level = level ∧ pr.2.millActive = true then
        (candidates_for lastPos pr.1 pr.2).foldl sel_step acc
      else acc)
    none

/-- Mutable state of the sequencer: the set of already-milled object ids
(the source's `milling` dict), the current tool position and the running
order counter. -/
structure SState where
  milled : List ℕ
  lastPos : Vtx
  order : ℕ

/-- The per-level `while True` loop of `polylines2gcode`: select the
nearest eligible polyline, emit its block, mark it milled, move the cursor
to its exit point and repeat until no eligible polyline remains.  The
recursion is bounded by an explicit fuel argument; since every iteration
marks a previously unmilled id, `polylines.length + 1` units of fuel (the
value used by `run_levels`) provably reach the `none` state, so the bounded
loop coincides with the source's unbounded one. -/
noncomputable def run_level (setup : Setup) (polylines : List (ℕ × Polyline))
    (level : ℤ) : ℕ → SState → List GLine × List (ℕ × ℤ) × SState
  | 0, st => ([], [], st)
  | fuel + 1, st =>
    match select_nearest st.lastPos level st.milled polylines with
    | none => ([], [], st)
    | some c =>
      let pl := (polylines.lookup c.2.1).getD empty_polyline
      let ob := object_block setup level st.order c.2.1 pl c.2.2
      let rest := run_level setup polylines level fuel
        ⟨c.2.1 :: st.milled, ob.2, st.order + 1⟩
      (ob.1 ++ rest.1, (c.2.1, level) :: rest.2.1, rest.2.2)

/-- The levels processed by the sequencer: `maxOuter` down to 0
(`range(maxOuter, -1, -1)` in the source). -/
def levels_list (maxOuter : ℕ) : List ℤ :=
  ((List.range (maxOuter + 1)).reverse).map Int.ofNat

/-- The level loop of `polylines2gcode`: run every level in descending
order, threading the sequencer state; returns the emitted lines and the
milling trace (object id and level of each selection, in order). -/
noncomputable def run_levels (setup : Setup)
    (polylines : List (ℕ × Polyline)) :
    List ℤ → SState → List GLine × List (ℕ × ℤ)
  | [], _ => ([], [])
  | l :: rest, st =>
    let r := run_level setup polylines l (polylines.length + 1) st
    let r2 := run_levels setup polylines rest r.2.2
    (r.1 ++ r2.1, r.2.1 ++ r2.2)

/-- Preamble lines of the program (`gcode_begin`): comments and modal
setup, the vertical feed line, the conditional `G64`, spindle and tool
lines, the retract rapid and the rapid to the origin. -/
noncomputable def gcode_begin (setup : Setup) : List GLine :=
  [GLine.other, GLine.other, GLine.other, GLine.other, GLine.other,
   GLine.other, GLine.other, GLine.other, GLine.feed setup.rateV] ++
  (if 0 < setup.g64 then [GLine.other] else []) ++
  [GLine.other, GLine.other, GLine.other, GLine.other,
   GLine.rapidZ (round6 setup.fastMoveZ), GLine.rapidXY 0 0, GLine.other]

/-- Closing lines of the program (`gcode_end`): end comment, retract
rapid, spindle off and the optional rapid back to the origin. -/
noncomputable def gcode_end (setup : Setup) : List GLine :=
  [GLine.other, GLine.other, GLine.rapidZ (round6 setup.fastMoveZ),
   GLine.other] ++
  (if setup.backHome then [GLine.rapidXY 0 0] else []) ++ [GLine.other]

/-- Embedding of `polylines2gcode` (`gcode.py`): the full emitted line
stream together with the milling trace — the (object id, level) pairs in
selection order, which is also the order of the emitted object blocks. -/
noncomputable def polylines2gcode (P : Project) : List GLine × List (ℕ × ℤ) :=
  let r := run_levels P.setup P.offsets (levels_list P.maxOuter)
    ⟨[], ⟨0, 0, 0⟩, 0⟩
  (gcode_begin P.setup ++ r.1 ++ gcode_end P.setup, r.2)

/-- Milling trace of a project: object id and level of every selection, in
emission order. -/
noncomputable def trace (P : Project) : List (ℕ × ℤ) := (polylines2gcode P).2

/-- Object-header markers of a line stream, in order: the observation that
attributes blocks of the stream to object ids. -/
def obj_markers (lines : List GLine) : List ℕ :=
  lines.filterMap fun l =>
    match l with
    | GLine.commentObject i => some i
    | _ => none

/-- Z coordinates of the cutting moves (`G01`/`G02`/`G03` with X and Y) of
a line stream, in order. -/
def motion_zs (lines : List GLine) : List ℝ :=
  lines.filterMap fun l =>
    match l with
    | GLine.linear _ _ z => some z
    | GLine.arcCW _ _ z _ _ => some z
    | GLine.arcCCW _ _ z _ _ => some z
    | _ => none

/-- Eligibility guard of the nearest-object scan: not yet milled, at the
level being processed, and with an active mill flag. -/
def eligible (level : ℤ) (milled : List ℕ) (pr : ℕ × Polyline) : Prop :=
  pr.1 ∉ milled ∧ pr.2.level = level ∧ pr.2.millActive = true

instance (level : ℤ) (milled : List ℕ) (pr : ℕ × Polyline) :
    Decidable (eligible level milled pr) := by
  unfold eligible; infer_instance

/-- Cumulative travelled distance at each vertex of the pass loop. -/
noncomputable def cum_dists : ℝ → Vtx → List Vtx → List ℝ
  | _, _, [] => []
  | trav, last, p :: rest =>
    (trav + calc_distance p last) :: cum_dists (trav + calc_distance p last) p rest

/-- Total travelled distance after the vertex loop. -/
noncomputable def trav_sum : ℝ → Vtx → List Vtx → ℝ
  | trav, _, [] => trav
  | trav, last, p :: rest => trav_sum (trav + calc_distance p last) p rest

/-- Final vertex after the vertex loop. -/
def last_vtx : Vtx → List Vtx → Vtx
  | last, [] => last
  | _, p :: rest => last_vtx p rest

/-- Cumulative distances of all cutting moves of one pass, including the
closing move of a closed polyline. -/
noncomputable def pass_cum_dists (pts : List Vtx) (closed : Bool) : List ℝ :=
  match pts with
  | [] => []
  | p0 :: rest =>
    cum_dists 0 p0 (p0 :: rest) ++
    (if closed then
      [trav_sum 0 p0 (p0 :: rest) +
        calc_distance p0 (last_vtx p0 (p0 :: rest))]
    else [])

end VG

/-! Helper lemmas. -/

/-- Flipping a segment twice is the identity. -/
theorem seg_flip_invol (s : VC.Segment) : VC.seg_flip (VC.seg_flip s) = s := by
  cases s
  simp [VC.seg_flip]

/-- The cleaner only ever removes segments: its output is a sublist of its
input. -/
theorem clean_segments_sublist (l : List VC.Segment) :
    (VC.clean_segments l).Sublist l := by
  induction l with
  | nil => simp [VC.clean_segments]
  | cons s rest ih =>
    simp only [VC.clean_segments]
    split
    · exact ih.cons s
    · exact ih.cons₂ s

/-- The cleaner is idempotent. -/
theorem clean_segments_idem (l : List VC.Segment) :
    VC.clean_segments (VC.clean_segments l) = VC.clean_segments l := by
  induction l with
  | nil => rfl
  | cons s rest ih =>
    by_cases hex : ∃ t ∈ rest, VC.seg_redundant s t
    · have h1 : VC.clean_segments (s :: rest) = VC.clean_segments rest := by
        simp only [VC.clean_segments, if_pos hex]
      rw [h1, ih]
    · have h1 : VC.clean_segments (s :: rest) = s :: VC.clean_segments rest := by
        simp only [VC.clean_segments, if_neg hex]
      have hex2 : ¬ ∃ t ∈ VC.clean_segments rest, VC.seg_redundant s t := by
        rintro ⟨t, ht, hr⟩
        exact hex ⟨t, (clean_segments_sublist rest).subset ht, hr⟩
      rw [h1]
      simp only [VC.clean_segments, if_neg hex2]
      rw [ih]

/-! Claim theorems for the geometry layer. -/

/-- C4 counterexample: on the first fixture of `test_clean_segments`, the
cleaner removes the segment (100,100)–(200,200) even though it is not a
set-duplicate (under fuzzy equality) of the surviving segment
(0,0)–(300,300); removal is therefore not restricted to duplicates. -/
theorem c4_clean_segments_counterexample :
    VC.clean_segments
      [⟨⟨100, 100, 0⟩, ⟨200, 200, 0⟩, 0⟩, ⟨⟨0, 0, 0⟩, ⟨300, 300, 0⟩, 0⟩] =
      [⟨⟨0, 0, 0⟩, ⟨300, 300, 0⟩, 0⟩] ∧
    ¬ VC.seg_dup ⟨⟨100, 100, 0⟩, ⟨200, 200, 0⟩, 0⟩
        ⟨⟨0, 0, 0⟩, ⟨300, 300, 0⟩, 0⟩ := by
  have hred : VC.seg_redundant ⟨⟨100, 100, 0⟩, ⟨200, 200, 0⟩, 0⟩
      ⟨⟨0, 0, 0⟩, ⟨300, 300, 0⟩, 0⟩ := by
    refine Or.inr ⟨?_, ?_⟩ <;>
    · simp [VC.is_between]
      norm_num
  refine ⟨?_, ?_⟩
  · simp [VC.clean_segments, hred]
  · simp [VC.seg_dup, VC.fuzy_match, VC.round2, VC.rhe]
    norm_num [Int.fract]

/-- C4 amended: the cleaner drops a segment exactly when a later segment
duplicates it (endpoint set match under fuzzy equality) or covers it
(both endpoints collinear within the later segment), keeping the later
occurrence; every other segment is kept in order (the output is a sublist
of the input), the pass is idempotent, and the three
`test_clean_segments` fixtures are reproduced. -/
theorem c4_clean_segments_amended :
    (∀ l : List VC.Segment, (VC.clean_segments l).Sublist l) ∧
    (∀ (s : VC.Segment) (rest : List VC.Segment),
      VC.clean_segments (s :: rest) =
        if ∃ t ∈ rest, VC.seg_redundant s t then VC.clean_segments rest
        else s :: VC.clean_segments rest) ∧
    (∀ l : List VC.Segment,
      VC.clean_segments (VC.clean_segments l) = VC.clean_segments l) ∧
    VC.clean_segments
      [⟨⟨100, 100, 0⟩, ⟨200, 200, 0⟩, 0⟩, ⟨⟨20, 0, 0⟩, ⟨300, 300, 0⟩, 0⟩] =
      [⟨⟨100, 100, 0⟩, ⟨200, 200, 0⟩, 0⟩, ⟨⟨20, 0, 0⟩, ⟨300, 300, 0⟩, 0⟩] ∧
    VC.clean_segments
      [⟨⟨100, 100, 0⟩, ⟨200, 200, 0⟩, 0⟩, ⟨⟨20, 0, 0⟩, ⟨300, 300, 0⟩, 0⟩,
       ⟨⟨20, 0, 0⟩, ⟨300, 300, 0⟩, 0⟩] =
      [⟨⟨100, 100, 0⟩, ⟨200, 200, 0⟩, 0⟩, ⟨⟨20, 0, 0⟩, ⟨300, 300, 0⟩, 0⟩] := by
  have hAC : ¬ VC.seg_redundant ⟨⟨100, 100, 0⟩, ⟨200, 200, 0⟩, 0⟩
      ⟨⟨20, 0, 0⟩, ⟨300, 300, 0⟩, 0⟩ := by
    rintro (hdup | hcov)
    · revert hdup
      simp [VC.seg_dup, VC.fuzy_match, VC.round2, VC.rhe]
      norm_num [Int.fract]
    · revert hcov
      simp [VC.seg_covered, VC.is_between]
      norm_num
  have hCC : VC.seg_redundant ⟨⟨20, 0, 0⟩, ⟨300, 300, 0⟩, 0⟩
      ⟨⟨20, 0, 0⟩, ⟨300, 300, 0⟩, 0⟩ :=
    Or.inl (Or.inl ⟨⟨rfl, rfl⟩, ⟨rfl, rfl⟩⟩)
  refine ⟨clean_segments_sublist, ?_, clean_segments_idem, ?_, ?_⟩
  · intro s rest
    simp only [VC.clean_segments]
  · simp [VC.clean_segments, hAC]
  · simp [VC.clean_segments, hAC, hCC]

/-- C5 counterexample: the fixture pair (123.009, 345.002) and
(123.002, 345.001) satisfies the claimed per-axis `< 0.01` threshold on
both axes, yet `fuzy_match` rejects it (as the in-repo test demands), so
the claimed characterisation is false. -/
theorem c5_fuzy_match_counterexample :
    (|(123009/1000 : ℚ) - 123002/1000| < 1/100 ∧
     |(345002/1000 : ℚ) - 345001/1000| < 1/100) ∧
    ¬ VC.fuzy_match ⟨123009/1000, 345002/1000, 0⟩
        ⟨123002/1000, 345001/1000, 0⟩ := by
  refine ⟨⟨by norm_num [abs_lt], by norm_num [abs_lt]⟩, ?_⟩
  simp [VC.fuzy_match, VC.round2, VC.rhe]
  norm_num [Int.fract]

/-- C5 amended: `fuzy_match` compares the two points per axis by rounding
each coordinate to two decimals and testing equality (an effective
tolerance of half a hundredth per axis, not the claimed strict 0.01
threshold); the three `test_fuzy_match` fixtures are reproduced. -/
theorem c5_fuzy_match_amended :
    (∀ p1 p2 : VC.Pt, VC.fuzy_match p1 p2 ↔
      VC.round2 p1.x = VC.round2 p2.x ∧ VC.round2 p1.y = VC.round2 p2.y) ∧
    VC.fuzy_match ⟨123001/1000, 345002/1000, 0⟩
      ⟨123002/1000, 345001/1000, 0⟩ ∧
    ¬ VC.fuzy_match ⟨123009/1000, 345002/1000, 0⟩
        ⟨123002/1000, 345001/1000, 0⟩ ∧
    ¬ VC.fuzy_match ⟨123001/1000, 345009/1000, 0⟩
        ⟨123002/1000, 345001/1000, 0⟩ := by
  refine ⟨fun p1 p2 => Iff.rfl, ?_, ?_, ?_⟩ <;>
  · simp [VC.fuzy_match, VC.round2, VC.rhe]
    norm_num [Int.fract]

/-- C8: reversing an object twice is the identity on its segment list
(exactly, since signed rational zeros coincide), and the
`test_reverse_object` fixture is reproduced: segment order reversed,
endpoints swapped, bulges negated. -/
theorem c8_reverse_object_involutive :
    (∀ segs : List VC.Segment,
      VC.reverse_object (VC.reverse_object segs) = segs) ∧
    VC.reverse_object
      [⟨⟨10, 90, 0⟩, ⟨0, 0, 0⟩, 0⟩, ⟨⟨0, 0, 0⟩, ⟨110, -10, 0⟩, 0⟩,
       ⟨⟨110, -10, 0⟩, ⟨120, 80, 0⟩, 1⟩, ⟨⟨120, 80, 0⟩, ⟨10, 90, 0⟩, 0⟩] =
      [⟨⟨10, 90, 0⟩, ⟨120, 80, 0⟩, 0⟩, ⟨⟨120, 80, 0⟩, ⟨110, -10, 0⟩, -1⟩,
       ⟨⟨110, -10, 0⟩, ⟨0, 0, 0⟩, 0⟩, ⟨⟨0, 0, 0⟩, ⟨10, 90, 0⟩, 0⟩] := by
  constructor
  · intro segs
    simp only [VC.reverse_object, List.map_reverse, List.reverse_reverse,
      List.map_map]
    have : VC.seg_flip ∘ VC.seg_flip = id := funext seg_flip_invol
    rw [this, List.map_id]
  · simp [VC.reverse_object, VC.seg_flip]

/-- C9 counterexample: the user-entered step value -0.01 passes the
configuration handler unchanged, so the stored step is not at most
-0.05. -/
theorem c9_step_clamp_counterexample :
    VC.global_changed_step (-1/100) = -1/100 ∧
    ¬ VC.global_changed_step (-1/100) ≤ -(5/100) := by
  have hneg : ¬ (0 : ℚ) ≤ -1/100 := by norm_num
  constructor
  · simp only [VC.global_changed_step]
    rw [if_neg hneg]
  · simp only [VC.global_changed_step]
    rw [if_neg hneg]
    norm_num

/-- C9 amended: after the handler the stored step is always strictly
negative — non-negative entries are replaced by -0.05, while negative
entries (including those in (-0.05, 0)) are stored unchanged; the bound
`step ≤ -0.05` is not enforced. -/
theorem c9_step_clamp_amended (s : ℚ) :
    VC.global_changed_step s < 0 ∧
    VC.global_changed_step s = (if 0 ≤ s then -(5/100) else s) := by
  refine ⟨?_, rfl⟩
  unfold VC.global_changed_step
  split
  · norm_num
  · linarith [not_le.mp (by assumption : ¬ (0:ℚ) ≤ s)]

/-- C6 counterexample: on the two-object nesting fixture of
`test_find_tool_offsets`, the nested (inner) object 0 is assigned
"inside" — not "outside" as claimed (and the outer object 1 gets
"outside", not "inside"); the labels of the claim are swapped. -/
theorem c6_find_tool_offsets_counterexample :
    (VC.find_tool_offsets
      [(0, ⟨[⟨⟨20, 70, 0⟩, ⟨20, 10, 0⟩, 0⟩, ⟨⟨20, 10, 0⟩, ⟨80, 70, 0⟩, 0⟩,
             ⟨⟨80, 70, 0⟩, ⟨20, 70, 0⟩, 0⟩], true⟩),
       (1, ⟨[⟨⟨10, 90, 0⟩, ⟨0, 0, 0⟩, 0⟩, ⟨⟨0, 0, 0⟩, ⟨110, -10, 0⟩, 0⟩,
             ⟨⟨110, -10, 0⟩, ⟨120, 80, 0⟩, 0⟩, ⟨⟨120, 80, 0⟩, ⟨10, 90, 0⟩, 0⟩],
            true⟩)]).1 = [(0, "inside"), (1, "outside")] ∧
    ([(0, "inside"), (1, "outside")] : List (ℕ × String)) ≠
      [(0, "outside"), (1, "inside")] := by
  have hq : VC.is_inside_polygon
      ⟨[⟨⟨10, 90, 0⟩, ⟨0, 0, 0⟩, 0⟩, ⟨⟨0, 0, 0⟩, ⟨110, -10, 0⟩, 0⟩,
        ⟨⟨110, -10, 0⟩, ⟨120, 80, 0⟩, 0⟩, ⟨⟨120, 80, 0⟩, ⟨10, 90, 0⟩, 0⟩],
       true⟩ ⟨20, 70, 0⟩ = true := by
    simp [VC.is_inside_polygon, VC.ray_crosses]
    norm_num
  have ht : VC.is_inside_polygon
      ⟨[⟨⟨20, 70, 0⟩, ⟨20, 10, 0⟩, 0⟩, ⟨⟨20, 10, 0⟩, ⟨80, 70, 0⟩, 0⟩,
        ⟨⟨80, 70, 0⟩, ⟨20, 70, 0⟩, 0⟩], true⟩ ⟨10, 90, 0⟩ = false := by
    simp [VC.is_inside_polygon, VC.ray_crosses]
    norm_num
  constructor
  · simp [VC.find_tool_offsets, VC.outer_count, VC.find_outer_objects,
      VC.first_point, hq, ht]
  · simp

/-- C6 amended: on the two-object nesting fixture, `find_tool_offsets`
assigns "inside" to the nested (inner) object and "outside" to the outer
object, and returns the maximum nesting depth `maxOuter = 1` (the value
asserted by the in-repo test). -/
theorem c6_find_tool_offsets_amended :
    VC.find_tool_offsets
      [(0, ⟨[⟨⟨20, 70, 0⟩, ⟨20, 10, 0⟩, 0⟩, ⟨⟨20, 10, 0⟩, ⟨80, 70, 0⟩, 0⟩,
             ⟨⟨80, 70, 0⟩, ⟨20, 70, 0⟩, 0⟩], true⟩),
       (1, ⟨[⟨⟨10, 90, 0⟩, ⟨0, 0, 0⟩, 0⟩, ⟨⟨0, 0, 0⟩, ⟨110, -10, 0⟩, 0⟩,
             ⟨⟨110, -10, 0⟩, ⟨120, 80, 0⟩, 0⟩, ⟨⟨120, 80, 0⟩, ⟨10, 90, 0⟩, 0⟩],
            true⟩)]
      = ([(0, "inside"), (1, "outside")], 1) := by
  have hq : VC.is_inside_polygon
      ⟨[⟨⟨10, 90, 0⟩, ⟨0, 0, 0⟩, 0⟩, ⟨⟨0, 0, 0⟩, ⟨110, -10, 0⟩, 0⟩,
        ⟨⟨110, -10, 0⟩, ⟨120, 80, 0⟩, 0⟩, ⟨⟨120, 80, 0⟩, ⟨10, 90, 0⟩, 0⟩],
       true⟩ ⟨20, 70, 0⟩ = true := by
    simp [VC.is_inside_polygon, VC.ray_crosses]
    norm_num
  have ht : VC.is_inside_polygon
      ⟨[⟨⟨20, 70, 0⟩, ⟨20, 10, 0⟩, 0⟩, ⟨⟨20, 10, 0⟩, ⟨80, 70, 0⟩, 0⟩,
        ⟨⟨80, 70, 0⟩, ⟨20, 70, 0⟩, 0⟩], true⟩ ⟨10, 90, 0⟩ = false := by
    simp [VC.is_inside_polygon, VC.ray_crosses]
    norm_num
  simp [VC.find_tool_offsets, VC.outer_count, VC.find_outer_objects,
    VC.first_point, hq, ht]

/-- C7: `calc_distance` is symmetric in its two points, while
`angle_of_line` is not antisymmetric: on the test fixture the angle from
(123,345) to (678,890) is `arctan (109/111)` (the exact value whose double
rounding is the asserted 0.7763075047323885), the swapped-endpoint angle
equals the original minus `π` (the asserted -2.3652851488574047), and in
particular it differs from the negated original. -/
theorem c7_distance_symm_angle_asym :
    (∀ A B : ℝ × ℝ, VCR.calc_distance A B = VCR.calc_distance B A) ∧
    VCR.angle_of_line (123, 345) (678, 890) = Real.arctan (109/111) ∧
    VCR.angle_of_line (678, 890) (123, 345) =
      VCR.angle_of_line (123, 345) (678, 890) - Real.pi ∧
    VCR.angle_of_line (123, 345) (678, 890) ≠
      - VCR.angle_of_line (678, 890) (123, 345) ∧
    ¬ ∀ A B : ℝ × ℝ, VCR.angle_of_line A B = - VCR.angle_of_line B A := by
  have hAB : VCR.angle_of_line (123, 345) (678, 890)
      = Real.arctan (109/111) := by
    rw [VCR.angle_of_line, VCR.atan2, if_pos (by norm_num : (0:ℝ) < 678 - 123)]
    norm_num
  have hBA : VCR.angle_of_line (678, 890) (123, 345)
      = Real.arctan (109/111) - Real.pi := by
    rw [VCR.angle_of_line, VCR.atan2,
      if_neg (by norm_num : ¬ (0:ℝ) < 123 - 678),
      if_pos (by norm_num : (123:ℝ) - 678 < 0),
      if_neg (by norm_num : ¬ (0:ℝ) ≤ 345 - 890)]
    norm_num
  have hlt : Real.arctan (109/111) < Real.pi / 2 :=
    Real.arctan_lt_pi_div_two _
  have hne : VCR.angle_of_line (123, 345) (678, 890) ≠
      - VCR.angle_of_line (678, 890) (123, 345) := by
    rw [hAB, hBA]
    intro h
    have hpi := Real.pi_pos
    nlinarith [h]
  refine ⟨?_, hAB, by rw [hBA, hAB], hne, fun hall => hne (hall _ _)⟩
  intro A B
  rw [VCR.calc_distance, VCR.calc_distance]
  congr 1
  ring

/-! Lemmas about the depth-stepping loop. -/

/-- The clamp never goes below the target depth. -/
theorem clampd_ge (D x : ℝ) : D ≤ VG.clampd D x := by
  unfold VG.clampd
  split
  · exact le_rfl
  · exact le_of_not_lt (by assumption)

/-- The clamp is the maximum of target and running depth. -/
theorem clampd_eq_max (D x : ℝ) : VG.clampd D x = max D x := by
  unfold VG.clampd
  rcases lt_or_le x D with h | h
  · rw [if_pos h, max_eq_left h.le]
  · rw [if_neg (not_lt.mpr h), max_eq_right h]

/-- Auxiliary: `getLast?` of a cons with a known last element. -/
theorem getLast_cons_some {α : Type} {l : List α} {x y : α}
    (h : l.getLast? = some x) : (y :: l).getLast? = some x := by
  have hm := List.mem_getLast?_cons (x := x) (y := y)
    (by rw [Option.mem_def]; exact h)
  rwa [Option.mem_def] at hm

/-- Depth sequence of the depth loop, fully characterised: the first entry
is the clamped starting depth, consecutive entries step by `millStep` and
re-clamp at the target, and the final entry is exactly the target depth. -/
theorem passes_depth_spec (D s : ℝ) (hs : s < 0) :
    ∀ (depth last : ℝ) (hx : Bool),
      ((VG.passes D s depth last hx).map VG.Pass.depth).head? =
          some (VG.clampd D depth) ∧
      ((VG.passes D s depth last hx).map VG.Pass.depth).Chain'
          (fun a b => b = max D (a + s)) ∧
      ((VG.passes D s depth last hx).map VG.Pass.depth).getLast? = some D := by
  intro depth last hx
  induction depth, last, hx using VG.passes.induct D s with
  | _ depth last hx ih1 ih2 =>
    by_cases hle : VG.clampd D depth ≤ D
    · have hd : VG.clampd D depth = D := le_antisymm hle (clampd_ge D depth)
      cases hx with
      | true =>
        obtain ⟨h1, h2, h3⟩ := ih1 hle rfl
        have htne : VG.passes D s (VG.clampd D depth) (VG.clampd D depth)
            false ≠ [] := by
          rw [VG.passes]
          exact List.cons_ne_nil _ _
        rw [VG.passes, if_pos hle, if_pos rfl]
        refine ⟨rfl, ?_, ?_⟩
        · simp only [List.map_cons]
          refine List.chain'_cons'.mpr ⟨?_, h2⟩
          intro y hy
          rw [h1] at hy
          cases hy
          rw [hd, VG.clampd, if_neg (lt_irrefl D), max_eq_left (by linarith)]
        · simp only [List.map_cons]
          exact getLast_cons_some h3
      | false =>
        rw [VG.passes, if_pos hle]
        simp only [Bool.false_eq_true, if_false]
        refine ⟨rfl, by simp, by simp [hd]⟩
    · obtain ⟨h1, h2, h3⟩ := ih2 hle hs
      have htne : VG.passes D s (VG.clampd D depth + s) (VG.clampd D depth)
          hx ≠ [] := by
        rw [VG.passes]
        exact List.cons_ne_nil _ _
      rw [VG.passes, if_neg hle, dif_pos hs]
      refine ⟨rfl, ?_, ?_⟩
      · simp only [List.map_cons]
        refine List.chain'_cons'.mpr ⟨?_, h2⟩
        intro y hy
        rw [h1] at hy
        cases hy
        rw [clampd_eq_max]
      · simp only [List.map_cons]
        exact getLast_cons_some h3

/-- Every pass depth stays at or above the target depth. -/
theorem passes_depth_ge (D s : ℝ) : ∀ (depth last : ℝ) (hx : Bool),
    ∀ x ∈ (VG.passes D s depth last hx).map VG.Pass.depth, D ≤ x := by
  intro depth last hx
  induction depth, last, hx using VG.passes.induct D s with
  | _ depth last hx ih1 ih2 =>
    intro x hxm
    rw [VG.passes] at hxm
    simp only [List.map_cons, List.mem_cons] at hxm
    rcases hxm with rfl | hxm
    · exact clampd_ge D depth
    · by_cases hle : VG.clampd D depth ≤ D
      · rw [if_pos hle] at hxm
        cases hx with
        | true => exact ih1 hle rfl x (by simpa using hxm)
        | false => simp at hxm
      · rw [if_neg hle] at hxm
        by_cases hs0 : s < 0
        · rw [dif_pos hs0] at hxm
          exact ih2 hle hs0 x (by simpa using hxm)
        · rw [dif_neg hs0] at hxm
          simp at hxm

/-- A step-and-clamp chain over values above the target is antitone. -/
theorem chain_step_antitone (D s : ℝ) (hs : s < 0) : ∀ (l : List ℝ),
    (∀ x ∈ l, D ≤ x) → l.Chain' (fun a b => b = max D (a + s)) →
    l.Chain' (fun a b => b ≤ a) := by
  intro l
  induction l with
  | nil => intro _ _; exact List.chain'_nil
  | cons a t ih =>
    intro hall hch
    rcases t with _ | ⟨b, t'⟩
    · simp
    · rw [List.chain'_cons] at hch ⊢
      refine ⟨?_, ih (fun x hx => hall x (List.mem_cons_of_mem _ hx)) hch.2⟩
      have ha : D ≤ a := hall a (List.mem_cons_self _ _)
      rw [hch.1]
      exact max_le ha (by linarith)

/-- C2: for a negative step, the emitted pass-depth sequence is nonempty,
starts at the step value (clamped at the target), advances by the step and
re-clamps at the target on every subsequent pass, is monotonically
non-increasing, and its final entry is exactly the configured target
depth. -/
theorem c2_depth_sequence (D s : ℝ) (hx : Bool) (hs : s < 0) :
    ((VG.passes D s s 0 hx).map VG.Pass.depth) ≠ [] ∧
    ((VG.passes D s s 0 hx).map VG.Pass.depth).head? = some (max D s) ∧
    ((VG.passes D s s 0 hx).map VG.Pass.depth).Chain'
      (fun a b => b = max D (a + s)) ∧
    ((VG.passes D s s 0 hx).map VG.Pass.depth).Chain' (fun a b => b ≤ a) ∧
    ((VG.passes D s s 0 hx).map VG.Pass.depth).getLast? = some D := by
  obtain ⟨h1, h2, h3⟩ := passes_depth_spec D s hs s 0 hx
  refine ⟨?_, by rw [h1, clampd_eq_max], h2,
    chain_step_antitone D s hs _ (passes_depth_ge D s s 0 hx) h2, h3⟩
  intro hnil
  rw [hnil] at h1
  simp at h1

/-- C2 witness: the characterisation applied to the concrete configuration
step -1, target depth -3. -/
theorem c2_depth_sequence_witness :
    ((VG.passes (-3) (-1) (-1) 0 false).map VG.Pass.depth) ≠ [] ∧
    ((VG.passes (-3) (-1) (-1) 0 false).map VG.Pass.depth).head? =
      some (max (-3) (-1)) ∧
    ((VG.passes (-3) (-1) (-1) 0 false).map VG.Pass.depth).Chain'
      (fun a b => b = max (-3) (a + -1)) ∧
    ((VG.passes (-3) (-1) (-1) 0 false).map VG.Pass.depth).Chain'
      (fun a b => b ≤ a) ∧
    ((VG.passes (-3) (-1) (-1) 0 false).map VG.Pass.depth).getLast? =
      some (-3) :=
  c2_depth_sequence (-3) (-1) false (by norm_num)

/-! Lemmas about helix ramping (claim C3). -/

/-- Clamping the target at itself is the identity. -/
theorem clampd_self (D : ℝ) : VG.clampd D D = D := by
  unfold VG.clampd
  simp

/-- `dropLast` of a cons with a nonempty tail. -/
theorem dropLast_cons_ne {α : Type} {l : List α} (h : l ≠ []) (a : α) :
    (a :: l).dropLast = a :: l.dropLast := by
  cases l with
  | nil => exact absurd rfl h
  | cons b t => rfl

/-- A depth loop entered with the helix flag off and the target already
reached emits exactly one flat pass. -/
theorem passes_flat (D s depth last : ℝ) (hle : VG.clampd D depth ≤ D) :
    VG.passes D s depth last false = [⟨VG.clampd D depth, last, false⟩] := by
  rw [VG.passes, if_pos hle]
  simp

/-- Structure of a helix run: every pass but the last still carries the
helix flag (and hence ramps), and the run ends with exactly one flat pass
at the target depth ramped-from and cut-at the target. -/
theorem passes_helix_struct (D s : ℝ) (hs : s < 0) :
    ∀ (depth last : ℝ) (hx : Bool), hx = true →
      (VG.passes D s depth last hx).getLast? = some ⟨D, D, false⟩ ∧
      (∀ p ∈ (VG.passes D s depth last hx).dropLast, p.helix = true) := by
  intro depth last hx
  induction depth, last, hx using VG.passes.induct D s with
  | _ depth last hx ih1 ih2 =>
    intro htrue
    subst htrue
    by_cases hle : VG.clampd D depth ≤ D
    · have hd : VG.clampd D depth = D := le_antisymm hle (clampd_ge D depth)
      have hflat : VG.passes D s (VG.clampd D depth) (VG.clampd D depth)
          false = [⟨D, D, false⟩] := by
        rw [passes_flat D s _ _ (by rw [hd, clampd_self])]
        rw [hd, clampd_self]
      rw [VG.passes, if_pos hle, if_pos rfl, hflat]
      constructor
      · rfl
      · intro p hp
        simp only [List.dropLast_cons₂, List.dropLast_single,
          List.mem_cons, List.not_mem_nil, or_false] at hp
        rw [hp]
    · obtain ⟨hL, hD⟩ := ih2 hle hs rfl
      have htne : VG.passes D s (VG.clampd D depth + s) (VG.clampd D depth)
          true ≠ [] := by
        rw [VG.passes]
        exact List.cons_ne_nil _ _
      rw [VG.passes, if_neg hle, dif_pos hs]
      constructor
      · exact getLast_cons_some hL
      · intro p hp
        rw [dropLast_cons_ne htne] at hp
        rcases List.mem_cons.mp hp with rfl | hp
        · rfl
        · exact hD p hp

/-- Head of any depth loop: the first pass starts ramping (or cutting)
from the initial previous-depth value. -/
theorem passes_head (D s depth last : ℝ) (hx : Bool) :
    (VG.passes D s depth last hx).head? =
      some ⟨VG.clampd D depth, last, hx⟩ := by
  rw [VG.passes]
  rfl

/-- The state part of the vertex loop depends only on the geometry: final
travelled distance and final vertex. -/
theorem moves_core_snd (hx : Bool) (od dep ld : ℝ) :
    ∀ (pts : List VG.Vtx) (trav : ℝ) (last : VG.Vtx),
      (VG.moves_core hx od dep ld trav last pts).2 =
        (VG.trav_sum trav last pts, VG.last_vtx last pts) := by
  intro pts
  induction pts with
  | nil => intro trav last; rfl
  | cons p rest ih =>
    intro trav last
    rw [VG.moves_core, VG.trav_sum, VG.last_vtx]
    exact ih _ _

/-- A single emitted move carries exactly one cutting Z, the rounded
commanded depth, whichever move kind (line or arc) is emitted. -/
theorem motion_zs_move_line_cons (last p : VG.Vtx) (z : ℝ)
    (rest : List VG.GLine) :
    VG.motion_zs (VG.move_line last p z :: rest) =
      VG.round6 z :: VG.motion_zs rest := by
  rw [VG.move_line]
  split
  · rfl
  · split
    · rfl
    · rfl

/-- Z values of the vertex loop: one per vertex, each the rounded
commanded depth at the corresponding cumulative distance. -/
theorem moves_core_zs (hx : Bool) (od dep ld : ℝ) :
    ∀ (pts : List VG.Vtx) (trav : ℝ) (last : VG.Vtx),
      VG.motion_zs (VG.moves_core hx od dep ld trav last pts).1 =
        (VG.cum_dists trav last pts).map
          (fun t => VG.round6 (VG.set_depth hx od dep ld t)) := by
  intro pts
  induction pts with
  | nil => intro trav last; rfl
  | cons p rest ih =>
    intro trav last
    rw [VG.moves_core, VG.cum_dists]
    simp only [List.map_cons]
    rw [motion_zs_move_line_cons]
    rw [ih]

/-- Non-cutting prefix lines of a pass carry no cutting Z. -/
theorem motion_zs_append (l1 l2 : List VG.GLine) :
    VG.motion_zs (l1 ++ l2) = VG.motion_zs l1 ++ VG.motion_zs l2 := by
  simp [VG.motion_zs, List.filterMap_append]

/-- Z values of one whole pass: exactly the rounded commanded depths at
the cumulative distances of all cutting moves (closing move included for a
closed polyline).  The helix flag of the pass decides between the linear
ramp from the previous pass depth and the flat pass depth, through
`set_depth`. -/
theorem pass_lines_zs (setup : VG.Setup) (pts : List VG.Vtx) (closed : Bool)
    (od : ℝ) (ps : VG.Pass) :
    VG.motion_zs (VG.pass_lines setup pts closed od ps) =
      (VG.pass_cum_dists pts closed).map
        (fun t => VG.round6 (VG.set_depth ps.helix od ps.depth ps.lastDepth t)) := by
  cases pts with
  | nil => rfl
  | cons p0 rest =>
    rw [VG.pass_lines, VG.pass_cum_dists]
    simp only [List.map_append]
    have hpre : ∀ l : List VG.GLine,
        VG.motion_zs (VG.GLine.commentDepth ps.depth ::
          ((if closed then ([] : List VG.GLine)
            else [VG.GLine.rapidZ (VG.round6 setup.fastMoveZ),
                  VG.GLine.rapidXY p0.x p0.y]) ++
           [VG.GLine.feed setup.rateV,
            VG.GLine.linearZ (if ps.helix then ps.lastDepth else ps.depth),
            VG.GLine.feed setup.rateH] ++ l)) = VG.motion_zs l := by
      intro l
      cases closed <;> simp [VG.motion_zs, List.filterMap_append]
    rw [List.append_assoc]
    rw [hpre]
    rw [motion_zs_append, moves_core_zs]
    congr 1
    cases closed
    · rfl
    · simp only [if_true]
      rw [moves_core_snd]
      rw [motion_zs_move_line_cons]
      rfl

/-- Auxiliary: evaluation of a planar distance at a perfect square. -/
theorem dist_eval (a b : VG.Vtx) (c : ℝ) (hc : 0 ≤ c)
    (h : (a.x - b.x) ^ 2 + (a.y - b.y) ^ 2 = c ^ 2) :
    VG.calc_distance a b = c := by
  rw [VG.calc_distance, h]
  exact Real.sqrt_sq hc

/-- Auxiliary: evaluation of six-decimal rounding at an exact value. -/
theorem round6_eval (x : ℝ) (n : ℤ) (h : x * 1000000 = (n : ℝ)) :
    VG.round6 x = (n : ℝ) / 1000000 := by
  rw [VG.round6, h, round_intCast]

/-- C3 amended: with the helix flag set, every pass until the target depth
is reached ramps (the flag stays set on all passes but the last), the
first pass ramps from previous depth 0, i.e. linearly from 0 to the pass
depth along cumulative distance, and only the final pass — one extra pass
emitted at the target depth after the flag is cleared — cuts flat; the Z
values of any pass are exactly the rounded `set_depth` interpolation at
the cumulative distances of its cutting moves. -/
theorem c3_helix_amended :
    (∀ D s : ℝ, s < 0 →
      (VG.passes D s s 0 true).head? = some ⟨max D s, 0, true⟩ ∧
      (VG.passes D s s 0 true).getLast? = some ⟨D, D, false⟩ ∧
      (∀ p ∈ (VG.passes D s s 0 true).dropLast, p.helix = true)) ∧
    (∀ (setup : VG.Setup) (pts : List VG.Vtx) (closed : Bool) (od : ℝ)
      (ps : VG.Pass),
      VG.motion_zs (VG.pass_lines setup pts closed od ps) =
        (VG.pass_cum_dists pts closed).map
          (fun t => VG.round6
            (VG.set_depth ps.helix od ps.depth ps.lastDepth t))) ∧
    (∀ od dep trav : ℝ, VG.set_depth true od dep 0 trav = trav / od * dep) := by
  refine ⟨?_, pass_lines_zs, ?_⟩
  · intro D s hs
    obtain ⟨hL, hD⟩ := passes_helix_struct D s hs s 0 true rfl
    exact ⟨by rw [passes_head, clampd_eq_max], hL, hD⟩
  · intro od dep trav
    rw [VG.set_depth, if_pos rfl]
    ring

/-- C3 amended witness: the structure applied to step -1, target -2: the
run ends with the flat pass at the target. -/
theorem c3_helix_amended_witness :
    (VG.passes (-2) (-1) (-1) 0 true).getLast? =
      some ⟨(-2 : ℝ), -2, false⟩ :=
  (c3_helix_amended.1 (-2) (-1) (by norm_num)).2.1

/-- C3 counterexample: with helix mode, step -1 and target -2 on a closed
10×10 square (perimeter 40), the depth loop emits a second pass that still
carries the helix flag, and that second pass's cutting Z values ramp from
-1 to -2 (they include both -1.25 and -1.5), so the pass after the first
full loop does not cut at a flat Z as claimed. -/
theorem c3_helix_counterexample :
    VG.passes (-2) (-1) (-1) 0 true =
      [⟨-1, 0, true⟩, ⟨-2, -1, true⟩, ⟨-2, -2, false⟩] ∧
    VG.path_length [⟨0, 0, 0⟩, ⟨10, 0, 0⟩, ⟨10, 10, 0⟩, ⟨0, 10, 0⟩] true =
      40 ∧
    VG.motion_zs (VG.pass_lines ⟨5, 1000, 500, 4, 0, false⟩
        [⟨0, 0, 0⟩, ⟨10, 0, 0⟩, ⟨10, 10, 0⟩, ⟨0, 10, 0⟩] true 40
        ⟨-2, -1, true⟩) =
      [-1, -5/4, -3/2, -7/4, -2] ∧
    ((-5/4 : ℝ) ≠ -3/2) := by
  have d00 : VG.calc_distance ⟨0, 0, 0⟩ ⟨0, 0, 0⟩ = 0 :=
    dist_eval _ _ 0 le_rfl (by norm_num)
  have d10 : VG.calc_distance ⟨10, 0, 0⟩ ⟨0, 0, 0⟩ = 10 :=
    dist_eval _ _ 10 (by norm_num) (by norm_num)
  have d21 : VG.calc_distance ⟨10, 10, 0⟩ ⟨10, 0, 0⟩ = 10 :=
    dist_eval _ _ 10 (by norm_num) (by norm_num)
  have d32 : VG.calc_distance ⟨0, 10, 0⟩ ⟨10, 10, 0⟩ = 10 :=
    dist_eval _ _ 10 (by norm_num) (by norm_num)
  have dc : VG.calc_distance ⟨0, 0, 0⟩ ⟨0, 10, 0⟩ = 10 :=
    dist_eval _ _ 10 (by norm_num) (by norm_num)
  have dgl : VG.calc_distance ⟨0, 10, 0⟩ ⟨0, 0, 0⟩ = 10 :=
    dist_eval _ _ 10 (by norm_num) (by norm_num)
  have e1 : VG.clampd (-2) (-1) = (-1 : ℝ) := by
    rw [VG.clampd, if_neg (by norm_num : ¬ (-1 : ℝ) < -2)]
  have hpass : VG.passes (-2) (-1) (-1) 0 true =
      [⟨-1, 0, true⟩, ⟨-2, -1, true⟩, ⟨-2, -2, false⟩] := by
    rw [VG.passes, e1, if_neg (by norm_num : ¬ (-1 : ℝ) ≤ -2),
      dif_pos (by norm_num : (-1 : ℝ) < 0),
      show (-1 : ℝ) + -1 = -2 by norm_num]
    rw [VG.passes, clampd_self, if_pos (le_refl (-2 : ℝ)), if_pos rfl]
    rw [passes_flat (-2) (-1) (-2) (-2) (by rw [clampd_self]), clampd_self]
  have hcum : VG.pass_cum_dists
      [⟨0, 0, 0⟩, ⟨10, 0, 0⟩, ⟨10, 10, 0⟩, ⟨0, 10, 0⟩] true =
      [0, 10, 20, 30, 40] := by
    rw [VG.pass_cum_dists]
    simp only [VG.cum_dists, VG.trav_sum, VG.last_vtx, d00, d10, d21, d32,
      dc, if_true]
    norm_num
  have hlen : VG.path_length
      [⟨0, 0, 0⟩, ⟨10, 0, 0⟩, ⟨10, 10, 0⟩, ⟨0, 10, 0⟩] true = 40 := by
    rw [VG.path_length]
    rw [moves_core_snd]
    simp only [VG.trav_sum, VG.last_vtx, List.getLastD, d00, d10, d21, d32,
      dgl, if_true]
    norm_num [dgl]
  have r0 : VG.round6 (VG.set_depth true 40 (-2) (-1) 0) = -1 := by
    rw [VG.set_depth, if_pos rfl, round6_eval _ (-1000000) (by norm_num)]
    norm_num
  have r1 : VG.round6 (VG.set_depth true 40 (-2) (-1) 10) = -5/4 := by
    rw [VG.set_depth, if_pos rfl, round6_eval _ (-1250000) (by norm_num)]
    norm_num
  have r2 : VG.round6 (VG.set_depth true 40 (-2) (-1) 20) = -3/2 := by
    rw [VG.set_depth, if_pos rfl, round6_eval _ (-1500000) (by norm_num)]
    norm_num
  have r3 : VG.round6 (VG.set_depth true 40 (-2) (-1) 30) = -7/4 := by
    rw [VG.set_depth, if_pos rfl, round6_eval _ (-1750000) (by norm_num)]
    norm_num
  have r4 : VG.round6 (VG.set_depth true 40 (-2) (-1) 40) = -2 := by
    rw [VG.set_depth, if_pos rfl, round6_eval _ (-2000000) (by norm_num)]
    norm_num
  refine ⟨hpass, hlen, ?_, by norm_num⟩
  rw [pass_lines_zs, hcum]
  simp only [List.map_cons, List.map_nil]
  rw [r0, r1, r2, r3, r4]

/-! Lemmas about the nearest-object selection (claims C1 and C10). -/

/-- One comparison step never discards the accumulator down to nothing. -/
theorem sel_step_ne_none (acc : Option (ℝ × ℕ × ℕ)) (c : ℝ × ℕ × ℕ) :
    VG.sel_step acc c ≠ none := by
  cases acc with
  | none => simp [VG.sel_step]
  | some a =>
    rw [VG.sel_step]
    split <;> simp

/-- A candidate fold starting from an existing best keeps some best. -/
theorem sel_fold_ne_none : ∀ (cands : List (ℝ × ℕ × ℕ))
    (acc : Option (ℝ × ℕ × ℕ)), acc ≠ none →
    cands.foldl VG.sel_step acc ≠ none := by
  intro cands
  induction cands with
  | nil => intro acc h; exact h
  | cons c cs ih =>
    intro acc _
    rw [List.foldl_cons]
    exact ih _ (sel_step_ne_none acc c)

/-- A candidate fold over a nonempty candidate list yields some best. -/
theorem sel_fold_cons_ne_none (c : ℝ × ℕ × ℕ) (cs : List (ℝ × ℕ × ℕ))
    (acc : Option (ℝ × ℕ × ℕ)) :
    ((c :: cs).foldl VG.sel_step acc) ≠ none := by
  rw [List.foldl_cons]
  exact sel_fold_ne_none cs _ (sel_step_ne_none acc c)

/-- The result of a candidate fold is the untouched accumulator or one of
the candidates. -/
theorem sel_fold_mem : ∀ (cands : List (ℝ × ℕ × ℕ))
    (acc : Option (ℝ × ℕ × ℕ)),
    cands.foldl VG.sel_step acc = acc ∨
      ∃ c ∈ cands, cands.foldl VG.sel_step acc = some c := by
  intro cands
  induction cands with
  | nil => intro acc; exact Or.inl rfl
  | cons c cs ih =>
    intro acc
    rw [List.foldl_cons]
    rcases ih (VG.sel_step acc c) with heq | ⟨c', hc', heq⟩
    · rw [heq]
      cases acc with
      | none => exact Or.inr ⟨c, List.mem_cons_self _ _, by rw [VG.sel_step]⟩
      | some a =>
        rw [VG.sel_step]
        split
        · exact Or.inr ⟨c, List.mem_cons_self _ _, rfl⟩
        · exact Or.inl rfl
    · exact Or.inr ⟨c', List.mem_cons_of_mem _ hc', heq⟩

/-- Every candidate of a polyline records that polyline's object id. -/
theorem candidates_for_idx (pos : VG.Vtx) (idx : ℕ) (pl : VG.Polyline) :
    ∀ c ∈ VG.candidates_for pos idx pl, c.2.1 = idx := by
  intro c hc
  rw [VG.candidates_for] at hc
  split at hc
  · simp only [List.mem_map] at hc
    obtain ⟨pr, _, rfl⟩ := hc
    rfl
  · rcases hpts : pl.points with _ | ⟨p0, rest⟩ <;> rw [hpts] at hc
    · simp at hc
    · simp only [List.mem_cons, List.mem_singleton, List.not_mem_nil,
        or_false] at hc
      rcases hc with rfl | rfl <;> rfl

/-- A scan in which no polyline is eligible returns the accumulator. -/
theorem select_fold_skip (pos : VG.Vtx) (lvl : ℤ) (milled : List ℕ) :
    ∀ (pls : List (ℕ × VG.Polyline)) (acc : Option (ℝ × ℕ × ℕ)),
    (∀ pr ∈ pls, ¬ (pr.1 ∉ milled ∧ pr.2.level = lvl ∧
        pr.2.millActive = true)) →
    pls.foldl
      (fun acc pr =>
        if pr.1 ∉ milled ∧ pr.2.level = lvl ∧ pr.2.millActive = true then
          (VG.candidates_for pos pr.1 pr.2).foldl VG.sel_step acc
        else acc) acc = acc := by
  intro pls
  induction pls with
  | nil => intro acc _; rfl
  | cons pr rest ih =>
    intro acc h
    rw [List.foldl_cons, if_neg (h pr (List.mem_cons_self _ _))]
    exact ih acc fun q hq => h q (List.mem_cons_of_mem _ hq)

/-- Soundness of the scan fold: a returned winner is the accumulator's or
comes from an eligible polyline and carries its id. -/
theorem select_fold_sound (pos : VG.Vtx) (lvl : ℤ) (milled : List ℕ) :
    ∀ (pls : List (ℕ × VG.Polyline)) (acc : Option (ℝ × ℕ × ℕ))
      (c : ℝ × ℕ × ℕ),
    pls.foldl
      (fun acc pr =>
        if pr.1 ∉ milled ∧ pr.2.level = lvl ∧ pr.2.millActive = true then
          (VG.candidates_for pos pr.1 pr.2).foldl VG.sel_step acc
        else acc) acc = some c →
    acc = some c ∨
      ∃ pr ∈ pls, (pr.1 ∉ milled ∧ pr.2.level = lvl ∧
        pr.2.millActive = true) ∧ c ∈ VG.candidates_for pos pr.1 pr.2 := by
  intro pls
  induction pls with
  | nil => intro acc c h; exact Or.inl h
  | cons pr rest ih =>
    intro acc c h
    rw [List.foldl_cons] at h
    rcases ih _ c h with hacc | ⟨q, hq, helig, hidx⟩
    · by_cases helig : pr.1 ∉ milled ∧ pr.2.level = lvl ∧
          pr.2.millActive = true
      · rw [if_pos helig] at hacc
        rcases sel_fold_mem (VG.candidates_for pos pr.1 pr.2) acc with
          heq | ⟨c', hc', heq⟩
        · rw [heq] at hacc
          exact Or.inl hacc
        · rw [heq] at hacc
          have hcc : c' = c := by injection hacc
          subst hcc
          exact Or.inr ⟨pr, List.mem_cons_self _ _, helig, hc'⟩
      · rw [if_neg helig] at hacc
        exact Or.inl hacc
    · exact Or.inr ⟨q, List.mem_cons_of_mem _ hq, helig, hidx⟩

/-- Progress of the scan fold: an eligible polyline with at least one
candidate forces a winner. -/
theorem select_fold_progress (pos : VG.Vtx) (lvl : ℤ) (milled : List ℕ) :
    ∀ (pls : List (ℕ × VG.Polyline)) (acc : Option (ℝ × ℕ × ℕ)),
    ((∃ pr ∈ pls, (pr.1 ∉ milled ∧ pr.2.level = lvl ∧
        pr.2.millActive = true) ∧ VG.candidates_for pos pr.1 pr.2 ≠ []) ∨
      acc ≠ none) →
    pls.foldl
      (fun acc pr =>
        if pr.1 ∉ milled ∧ pr.2.level = lvl ∧ pr.2.millActive = true then
          (VG.candidates_for pos pr.1 pr.2).foldl VG.sel_step acc
        else acc) acc ≠ none := by
  intro pls
  induction pls with
  | nil =>
    intro acc h
    rcases h with ⟨pr, hpr, _⟩ | h
    · exact absurd hpr (List.not_mem_nil pr)
    · exact h
  | cons pr rest ih =>
    intro acc h
    rw [List.foldl_cons]
    rcases h with ⟨q, hq, helig, hcand⟩ | hacc
    · rcases List.mem_cons.mp hq with rfl | hq
      · refine ih _ (Or.inr ?_)
        rw [if_pos helig]
        rcases hcc : VG.candidates_for pos q.1 q.2 with _ | ⟨c, cs⟩
        · exact absurd hcc hcand
        · exact sel_fold_cons_ne_none c cs acc
      · by_cases helig' : pr.1 ∉ milled ∧ pr.2.level = lvl ∧
            pr.2.millActive = true
        · rw [if_pos helig']
          rcases hcc : VG.candidates_for pos pr.1 pr.2 with _ | ⟨c, cs⟩
          · exact ih _ (Or.inl ⟨q, hq, helig, hcand⟩)
          · exact ih _ (Or.inr (sel_fold_cons_ne_none c cs acc))
        · rw [if_neg helig']
          exact ih _ (Or.inl ⟨q, hq, helig, hcand⟩)
    · by_cases helig' : pr.1 ∉ milled ∧ pr.2.level = lvl ∧
          pr.2.millActive = true
      · rw [if_pos helig']
        refine ih _ (Or.inr ?_)
        exact sel_fold_ne_none _ _ hacc
      · rw [if_neg helig']
        exact ih _ (Or.inr hacc)

/-- A scan with no eligible polyline finds nothing. -/
theorem select_nearest_none (pos : VG.Vtx) (lvl : ℤ) (milled : List ℕ)
    (pls : List (ℕ × VG.Polyline))
    (h : ∀ pr ∈ pls, ¬ (pr.1 ∉ milled ∧ pr.2.level = lvl ∧
        pr.2.millActive = true)) :
    VG.select_nearest pos lvl milled pls = none := by
  rw [VG.select_nearest]
  exact select_fold_skip pos lvl milled pls none h

/-- A found winner comes from an eligible polyline and carries its id. -/
theorem select_nearest_sound (pos : VG.Vtx) (lvl : ℤ) (milled : List ℕ)
    (pls : List (ℕ × VG.Polyline)) (c : ℝ × ℕ × ℕ)
    (h : VG.select_nearest pos lvl milled pls = some c) :
    ∃ pr ∈ pls, (pr.1 ∉ milled ∧ pr.2.level = lvl ∧
      pr.2.millActive = true) ∧ c ∈ VG.candidates_for pos pr.1 pr.2 := by
  rw [VG.select_nearest] at h
  rcases select_fold_sound pos lvl milled pls none c h with hn | hr
  · exact absurd hn (by simp)
  · exact hr

/-- When exactly one polyline is eligible (and has a vertex), the scan
selects it. -/
theorem select_nearest_unique (pos : VG.Vtx) (lvl : ℤ) (milled : List ℕ)
    (pls : List (ℕ × VG.Polyline)) (pr₀ : ℕ × VG.Polyline)
    (hmem : pr₀ ∈ pls)
    (helig : pr₀.1 ∉ milled ∧ pr₀.2.level = lvl ∧ pr₀.2.millActive = true)
    (hcand : VG.candidates_for pos pr₀.1 pr₀.2 ≠ [])
    (huniq : ∀ pr ∈ pls, (pr.1 ∉ milled ∧ pr.2.level = lvl ∧
        pr.2.millActive = true) → pr.1 = pr₀.1) :
    ∃ d k, VG.select_nearest pos lvl milled pls = some (d, pr₀.1, k) := by
  have hne : VG.select_nearest pos lvl milled pls ≠ none := by
    rw [VG.select_nearest]
    exact select_fold_progress pos lvl milled pls none
      (Or.inl ⟨pr₀, hmem, helig, hcand⟩)
  rcases hc : VG.select_nearest pos lvl milled pls with _ | ⟨d, i, k⟩
  · exact absurd hc hne
  · obtain ⟨pr, hpr, helig', hmemc⟩ :=
      select_nearest_sound pos lvl milled pls (d, i, k) hc
    refine ⟨d, k, ?_⟩
    have : i = pr₀.1 := by
      rw [show i = pr.1 from candidates_for_idx pos pr.1 pr.2 _ hmemc]
      exact huniq pr hpr helig'
    rw [this]

/-! Lemmas attributing emitted lines to objects. -/

/-- Markers distribute over appends. -/
theorem obj_markers_append (l1 l2 : List VG.GLine) :
    VG.obj_markers (l1 ++ l2) = VG.obj_markers l1 ++ VG.obj_markers l2 := by
  simp [VG.obj_markers, List.filterMap_append]

/-- A cutting move carries no object marker. -/
theorem obj_markers_move_line_cons (last p : VG.Vtx) (z : ℝ)
    (rest : List VG.GLine) :
    VG.obj_markers (VG.move_line last p z :: rest) = VG.obj_markers rest := by
  rw [VG.move_line]
  split
  · rfl
  · split <;> rfl

/-- The vertex loop emits no object markers. -/
theorem obj_markers_moves_core (hx : Bool) (od dep ld : ℝ) :
    ∀ (pts : List VG.Vtx) (trav : ℝ) (last : VG.Vtx),
      VG.obj_markers (VG.moves_core hx od dep ld trav last pts).1 = [] := by
  intro pts
  induction pts with
  | nil => intro trav last; rfl
  | cons p rest ih =>
    intro trav last
    rw [VG.moves_core]
    rw [obj_markers_move_line_cons]
    exact ih _ _

/-- A depth pass emits no object markers. -/
theorem obj_markers_pass_lines (setup : VG.Setup) (pts : List VG.Vtx)
    (closed : Bool) (od : ℝ) (ps : VG.Pass) :
    VG.obj_markers (VG.pass_lines setup pts closed od ps) = [] := by
  cases pts with
  | nil => rfl
  | cons p0 rest =>
    rw [VG.pass_lines]
    have h1 : VG.obj_markers
        (if closed then ([] : List VG.GLine)
         else [VG.GLine.rapidZ (VG.round6 setup.fastMoveZ),
               VG.GLine.rapidXY p0.x p0.y]) = [] := by
      split <;> rfl
    have h2 : VG.obj_markers
        (if closed then
          [VG.move_line (VG.moves_core ps.helix od ps.depth ps.lastDepth 0 p0
              (p0 :: rest)).2.2 p0
            (VG.set_depth ps.helix od ps.depth ps.lastDepth
              ((VG.moves_core ps.helix od ps.depth ps.lastDepth 0 p0
                  (p0 :: rest)).2.1 +
                VG.calc_distance p0
                  (VG.moves_core ps.helix od ps.depth ps.lastDepth 0 p0
                    (p0 :: rest)).2.2))]
         else []) = [] := by
      split
      · rw [obj_markers_move_line_cons]
        rfl
      · rfl
    show VG.obj_markers (VG.GLine.commentDepth ps.depth :: (_ ++ _ ++ _ ++ _)) = []
    rw [show ∀ (a : VG.GLine) (l : List VG.GLine),
        VG.obj_markers (a :: l) =
          (match a with
            | VG.GLine.commentObject i => some i
            | _ => none).toList ++ VG.obj_markers l from
      fun a l => by cases a <;> rfl]
    simp only [Option.toList, List.nil_append]
    rw [obj_markers_append, obj_markers_append, obj_markers_append,
      obj_markers_moves_core, h1, h2]
    rfl

/-- Flattening marker-free line blocks yields no markers. -/
theorem obj_markers_flatten_nil :
    ∀ (L : List (List VG.GLine)), (∀ l ∈ L, VG.obj_markers l = []) →
    VG.obj_markers L.flatten = [] := by
  intro L
  induction L with
  | nil => intro _; rfl
  | cons l rest ih =>
    intro h
    rw [List.flatten_cons, obj_markers_append,
      h l (List.mem_cons_self _ _), ih fun x hx => h x (List.mem_cons_of_mem _ hx)]
    rfl

/-- Nonempty input lists zip to a nonempty vertex list. -/
theorem zip3_ne_nil {x : ℝ} {xs : List ℝ} {y : ℝ} {ys : List ℝ} {b : ℝ}
    {bs : List ℝ} : VG.zip3 (x :: xs) (y :: ys) (b :: bs) ≠ [] := by
  rw [VG.zip3]
  exact List.cons_ne_nil _ _

/-- Zipping with an empty first list gives the empty list. -/
theorem zip3_nil_left (ys bs : List ℝ) : VG.zip3 [] ys bs = [] := by
  cases ys <;> cases bs <;> rfl

/-- Zipping with an empty second list gives the empty list. -/
theorem zip3_nil_mid (xs bs : List ℝ) : VG.zip3 xs [] bs = [] := by
  cases xs <;> cases bs <;> rfl

/-- Zipping with an empty third list gives the empty list. -/
theorem zip3_nil_right (xs ys : List ℝ) : VG.zip3 xs ys [] = [] := by
  cases xs <;> cases ys <;> rfl

/-- A vertex list is the zip of its three coordinate lists, so a nonempty
vertex list forces all three lists nonempty. -/
theorem points_ne_nil_parts {pl : VG.Polyline} (h : pl.points ≠ []) :
    pl.xdata ≠ [] ∧ pl.ydata ≠ [] ∧ pl.bdata ≠ [] := by
  have h' : VG.zip3 pl.xdata pl.ydata pl.bdata ≠ [] := h
  refine ⟨?_, ?_, ?_⟩ <;> intro hnil
  · rw [hnil, zip3_nil_left] at h'
    exact h' rfl
  · rw [hnil, zip3_nil_mid] at h'
    exact h' rfl
  · rw [hnil, zip3_nil_right] at h'
    exact h' rfl

/-- A rotation of a nonempty list is nonempty. -/
theorem rotate_list_ne_nil {α : Type} {l : List α} (h : l ≠ []) (k : ℕ) :
    VG.rotate_list l k ≠ [] := by
  rw [VG.rotate_list]
  intro hc
  rcases List.append_eq_nil.mp hc with ⟨h1, h2⟩
  rcases lt_or_le k l.length with hk | hk
  · have := List.drop_eq_nil_iff.mp h1
    omega
  · rcases List.take_eq_nil_iff.mp h2 with h2' | h2'
    · subst h2'
      exact h (List.eq_nil_of_length_eq_zero (Nat.le_zero.mp hk))
    · exact h h2'

/-- The reoriented vertex list of a polyline with vertices is nonempty. -/
theorem reorient_ne_nil {pl : VG.Polyline} (h : pl.points ≠ []) (k : ℕ) :
    VG.reorient pl k ≠ [] := by
  rw [VG.reorient]
  obtain ⟨hx, hy, hb⟩ := points_ne_nil_parts h
  split
  · exact rotate_list_ne_nil h k
  · split
    · rcases hxe : pl.xdata.reverse with _ | ⟨x, xs⟩
      · exact absurd (List.reverse_eq_nil_iff.mp hxe) hx
      rcases hye : pl.ydata.reverse with _ | ⟨y, ys⟩
      · exact absurd (List.reverse_eq_nil_iff.mp hye) hy
      rcases hbe : (VG.rotate_list pl.bdata.reverse 1).map (fun b => -b) with
        _ | ⟨b, bs⟩
      · exact absurd (List.map_eq_nil_iff.mp hbe)
          (rotate_list_ne_nil
            (fun hc => hb (List.reverse_eq_nil_iff.mp hc)) 1)
      · exact zip3_ne_nil
    · exact h

/-- A candidate exists only for a polyline with at least one vertex. -/
theorem candidates_points_ne_nil {pos : VG.Vtx} {idx : ℕ}
    {pl : VG.Polyline} {c : ℝ × ℕ × ℕ}
    (hc : c ∈ VG.candidates_for pos idx pl) : pl.points ≠ [] := by
  rw [VG.candidates_for] at hc
  intro hnil
  rw [hnil] at hc
  split at hc
  · simp at hc
  · simp at hc

/-- Association-list lookup of a member under distinct keys. -/
theorem lookup_eq_of_nodup :
    ∀ (pls : List (ℕ × VG.Polyline)) (pr : ℕ × VG.Polyline),
    (pls.map Prod.fst).Nodup → pr ∈ pls → pls.lookup pr.1 = some pr.2 := by
  intro pls
  induction pls with
  | nil => intro pr _ h; exact absurd h (List.not_mem_nil pr)
  | cons q rest ih =>
    intro pr hnd hmem
    rw [List.map_cons, List.nodup_cons] at hnd
    rcases List.mem_cons.mp hmem with rfl | hmem
    · simp [List.lookup]
    · have hf : (pr.1 == q.1) = false :=
        beq_eq_false_iff_ne.mpr fun hc => hnd.1 (by
          rw [← hc]
          exact List.mem_map_of_mem Prod.fst hmem)
      simp only [List.lookup, hf]
      exact ih pr hnd.2 hmem

/-- Marker contribution of a single line. -/
theorem obj_markers_cons (a : VG.GLine) (l : List VG.GLine) :
    VG.obj_markers (a :: l) =
      (match a with
        | VG.GLine.commentObject i => some i
        | _ => none).toList ++ VG.obj_markers l := by
  cases a <;> rfl

/-- Markers of one object block: exactly the selected object's id. -/
theorem obj_markers_object_block (setup : VG.Setup) (lvl : ℤ) (ord idx : ℕ)
    (pl : VG.Polyline) (k : ℕ) (hpts : VG.reorient pl k ≠ []) :
    VG.obj_markers (VG.object_block setup lvl ord idx pl k).1 = [idx] := by
  rcases h : VG.reorient pl k with _ | ⟨p0, rest⟩
  · exact absurd h hpts
  rw [VG.object_block]
  rw [h]
  simp only []
  have h1 : VG.obj_markers
      (if pl.toolOffset ≠ "" then [VG.GLine.other] else []) = [] := by
    split <;> rfl
  have h2 : VG.obj_markers
      (if pl.closed then
        [VG.GLine.rapidZ (VG.round6 setup.fastMoveZ),
         VG.GLine.rapidXY p0.x p0.y]
       else []) = [] := by
    split <;> rfl
  have h3 : VG.obj_markers
      (((VG.passes pl.millDepth pl.millStep pl.millStep 0 pl.millHelix).map
        (VG.pass_lines setup (p0 :: rest) pl.closed
          (VG.path_length (p0 :: rest) pl.closed))).flatten) = [] := by
    apply obj_markers_flatten_nil
    intro l hl
    obtain ⟨ps, _, rfl⟩ := List.mem_map.mp hl
    exact obj_markers_pass_lines _ _ _ _ _
  simp only [obj_markers_cons, obj_markers_append, h1, h2, h3,
    Option.toList]
  rfl

/-! Correctness of the per-level loop and of the level iteration. -/

/-- Per-level loop invariants: every trace entry records the processed
level and a fresh, eligible polyline; trace ids are distinct; the final
milled set is the trace's ids on top of the initial one; and (under
distinct dictionary keys) the emitted object markers are exactly the trace
ids in order. -/
theorem run_level_spec (setup : VG.Setup) (pls : List (ℕ × VG.Polyline))
    (lvl : ℤ) : ∀ (fuel : ℕ) (st : VG.SState),
    (∀ pr ∈ (VG.run_level setup pls lvl fuel st).2.1,
      pr.2 = lvl ∧ pr.1 ∉ st.milled ∧
      ∃ q ∈ pls, q.1 = pr.1 ∧ q.2.level = lvl ∧ q.2.millActive = true) ∧
    ((VG.run_level setup pls lvl fuel st).2.1.map Prod.fst).Nodup ∧
    (VG.run_level setup pls lvl fuel st).2.2.milled =
      ((VG.run_level setup pls lvl fuel st).2.1.map Prod.fst).reverse ++
        st.milled ∧
    ((pls.map Prod.fst).Nodup →
      VG.obj_markers (VG.run_level setup pls lvl fuel st).1 =
        (VG.run_level setup pls lvl fuel st).2.1.map Prod.fst) := by
  intro fuel
  induction fuel with
  | zero =>
    intro st
    refine ⟨fun pr hpr => absurd hpr (List.not_mem_nil pr), ?_, ?_, ?_⟩
    · exact List.nodup_nil
    · rfl
    · intro _; rfl
  | succ fuel ih =>
    intro st
    rcases hsel : VG.select_nearest st.lastPos lvl st.milled pls with
      _ | ⟨d, i, k⟩
    · rw [VG.run_level, hsel]
      refine ⟨fun pr hpr => absurd hpr (List.not_mem_nil pr), ?_, ?_, ?_⟩
      · exact List.nodup_nil
      · rfl
      · intro _; rfl
    · obtain ⟨pr, hpr, helig, hmemc⟩ :=
        select_nearest_sound st.lastPos lvl st.milled pls (d, i, k) hsel
      have hidx : i = pr.1 := candidates_for_idx st.lastPos pr.1 pr.2 _ hmemc
      obtain ⟨he1, he2, he3⟩ := helig
      obtain ⟨ihm, ihnd, ihmil, ihmk⟩ :=
        ih ⟨i :: st.milled,
          (VG.object_block setup lvl st.order i
            ((pls.lookup i).getD VG.empty_polyline) k).2, st.order + 1⟩
      rw [VG.run_level, hsel]
      simp only []
      refine ⟨?_, ?_, ?_, ?_⟩
      · intro q hq
        rcases List.mem_cons.mp hq with rfl | hq
        · exact ⟨rfl, by rw [hidx]; exact he1,
            pr, hpr, hidx.symm, he2, he3⟩
        · obtain ⟨hq1, hq2, hq3⟩ := ihm q hq
          exact ⟨hq1, fun hc => hq2 (List.mem_cons_of_mem _ hc), hq3⟩
      · rw [List.map_cons]
        refine List.nodup_cons.mpr ⟨?_, ihnd⟩
        intro hc
        rcases List.mem_map.mp hc with ⟨q, hq, hq1⟩
        exact (ihm q hq).2.1 (by rw [hq1]; exact List.mem_cons_self _ _)
      · rw [ihmil]
        simp [List.reverse_cons, List.append_assoc]
      · intro hk
        rw [obj_markers_append, ihmk hk]
        have hlk : pls.lookup i = some pr.2 := by
          rw [hidx]
          exact lookup_eq_of_nodup pls pr hk hpr
        have hmk1 : VG.obj_markers
            (VG.object_block setup lvl st.order i
              ((pls.lookup i).getD VG.empty_polyline) k).1 = [i] := by
          apply obj_markers_object_block
          rw [hlk]
          exact reorient_ne_nil (candidates_points_ne_nil hmemc) k
        rw [hmk1]
        rfl

/-- Level-iteration invariants: trace entries carry processed levels and
eligible polylines, the trace is level-antitone when the levels are
processed in strictly descending order, its ids are distinct, and the
object markers follow the trace. -/
theorem run_levels_spec (setup : VG.Setup) (pls : List (ℕ × VG.Polyline)) :
    ∀ (lvls : List ℤ) (st : VG.SState),
    (∀ pr ∈ (VG.run_levels setup pls lvls st).2,
      pr.2 ∈ lvls ∧ pr.1 ∉ st.milled ∧
      ∃ q ∈ pls, q.1 = pr.1 ∧ q.2.level = pr.2 ∧ q.2.millActive = true) ∧
    (lvls.Pairwise (fun a b => b < a) →
      (VG.run_levels setup pls lvls st).2.Pairwise (fun a b => b.2 ≤ a.2)) ∧
    ((VG.run_levels setup pls lvls st).2.map Prod.fst).Nodup ∧
    ((pls.map Prod.fst).Nodup →
      VG.obj_markers (VG.run_levels setup pls lvls st).1 =
        (VG.run_levels setup pls lvls st).2.map Prod.fst) := by
  intro lvls
  induction lvls with
  | nil =>
    intro st
    refine ⟨fun pr hpr => absurd hpr (List.not_mem_nil pr),
      fun _ => List.Pairwise.nil, List.nodup_nil, fun _ => rfl⟩
  | cons l rest ih =>
    intro st
    obtain ⟨hm, hnd, hmil, hmk⟩ :=
      run_level_spec setup pls l (pls.length + 1) st
    obtain ⟨ihm, ihpw, ihnd, ihmk⟩ := ih
      (VG.run_level setup pls l (pls.length + 1) st).2.2
    rw [VG.run_levels]
    simp only []
    have hchunk_mem : ∀ a ∈ (VG.run_level setup pls l
        (pls.length + 1) st).2.1.map Prod.fst,
        a ∈ (VG.run_level setup pls l (pls.length + 1) st).2.2.milled := by
      intro a ha
      rw [hmil]
      exact List.mem_append_left _ (List.mem_reverse.mpr ha)
    refine ⟨?_, ?_, ?_, ?_⟩
    · intro pr hpr
      rcases List.mem_append.mp hpr with hpr | hpr
      · obtain ⟨h1, h2, q, hq, hq1, hq2, hq3⟩ := hm pr hpr
        exact ⟨by rw [h1]; exact List.mem_cons_self _ _, h2,
          q, hq, hq1, by rw [hq2, h1], hq3⟩
      · obtain ⟨h1, h2, h3⟩ := ihm pr hpr
        refine ⟨List.mem_cons_of_mem _ h1, ?_, h3⟩
        intro hc
        apply h2
        rw [hmil]
        exact List.mem_append_right _ hc
    · intro hpw
      rw [List.pairwise_cons] at hpw
      rw [List.pairwise_append]
      refine ⟨?_, ihpw hpw.2, ?_⟩
      · apply List.pairwise_of_forall_mem_list
        intro a ha b hb
        rw [(hm a ha).1, (hm b hb).1]
      · intro a ha b hb
        rw [(hm a ha).1]
        exact le_of_lt (hpw.1 b.2 (ihm b hb).1)
    · rw [List.map_append]
      rw [List.nodup_append]
      refine ⟨hnd, ihnd, ?_⟩
      intro a ha hc
      rcases List.mem_map.mp hc with ⟨q, hq, hq1⟩
      exact (ihm q hq).2.1 (by rw [hq1]; exact hchunk_mem a ha)
    · intro hk
      rw [obj_markers_append, hmk hk, ihmk hk, List.map_append]

/-- The processed levels descend strictly from `maxOuter` to 0. -/
theorem levels_list_pairwise (m : ℕ) :
    (VG.levels_list m).Pairwise (fun a b => b < a) := by
  rw [VG.levels_list]
  rw [List.pairwise_map]
  rw [List.pairwise_reverse]
  exact (List.pairwise_lt_range (m + 1)).imp fun h => Int.ofNat_lt.mpr h

/-- The program preamble carries no object markers. -/
theorem obj_markers_gcode_begin (setup : VG.Setup) :
    VG.obj_markers (VG.gcode_begin setup) = [] := by
  rw [VG.gcode_begin, obj_markers_append, obj_markers_append]
  have h1 : VG.obj_markers
      (if 0 < setup.g64 then [VG.GLine.other] else []) = [] := by
    split <;> rfl
  rw [h1]
  rfl

/-- The program epilogue carries no object markers. -/
theorem obj_markers_gcode_end (setup : VG.Setup) :
    VG.obj_markers (VG.gcode_end setup) = [] := by
  rw [VG.gcode_end, obj_markers_append, obj_markers_append]
  have h1 : VG.obj_markers
      (if setup.backHome then [VG.GLine.rapidXY 0 0] else []) = [] := by
    split <;> rfl
  rw [h1]
  rfl

/-- A level loop whose first scan already fails is a no-op, regardless of
the remaining fuel. -/
theorem run_level_stuck (setup : VG.Setup) (pls : List (ℕ × VG.Polyline))
    (lvl : ℤ) (st : VG.SState)
    (h : VG.select_nearest st.lastPos lvl st.milled pls = none) :
    ∀ fuel, VG.run_level setup pls lvl fuel st = ([], [], st) := by
  intro fuel
  cases fuel with
  | zero => rfl
  | succ n => rw [VG.run_level, h]

/-- One successful iteration of the level loop, unfolded. -/
theorem run_level_step (setup : VG.Setup) (pls : List (ℕ × VG.Polyline))
    (lvl : ℤ) (fuel : ℕ) (st : VG.SState) (d : ℝ) (i k : ℕ)
    (h : VG.select_nearest st.lastPos lvl st.milled pls = some (d, i, k)) :
    VG.run_level setup pls lvl (fuel + 1) st =
      ((VG.object_block setup lvl st.order i
          ((pls.lookup i).getD VG.empty_polyline) k).1 ++
        (VG.run_level setup pls lvl fuel
          ⟨i :: st.milled,
           (VG.object_block setup lvl st.order i
             ((pls.lookup i).getD VG.empty_polyline) k).2,
           st.order + 1⟩).1,
       (i, lvl) ::
        (VG.run_level setup pls lvl fuel
          ⟨i :: st.milled,
           (VG.object_block setup lvl st.order i
             ((pls.lookup i).getD VG.empty_polyline) k).2,
           st.order + 1⟩).2.1,
       (VG.run_level setup pls lvl fuel
          ⟨i :: st.milled,
           (VG.object_block setup lvl st.order i
             ((pls.lookup i).getD VG.empty_polyline) k).2,
           st.order + 1⟩).2.2) := by
  rw [VG.run_level, h]

/-- Concrete evaluation of the sequencer's milling trace on the
two-rectangle fixture: the nested rectangle (id 0, level 1) is selected
first, the outer rectangle (id 1, level 0) second. -/
theorem fixture_trace_eval :
    VG.trace
      ⟨[(0, ⟨[30, 40, 40, 30], [30, 30, 40, 40], [0, 0, 0, 0], true, 1,
             false, "outside", -2, -1, false, true⟩),
        (1, ⟨[0, 100, 100, 0], [0, 0, 100, 100], [0, 0, 0, 0], true, 0,
             false, "inside", -2, -1, false, true⟩)],
       1, ⟨5, 1000, 500, 4, 0, false⟩⟩ = [(0, 1), (1, 0)] := by
  set pl0 : VG.Polyline :=
    ⟨[30, 40, 40, 30], [30, 30, 40, 40], [0, 0, 0, 0], true, 1,
     false, "outside", -2, -1, false, true⟩ with hpl0
  set pl1 : VG.Polyline :=
    ⟨[0, 100, 100, 0], [0, 0, 100, 100], [0, 0, 0, 0], true, 0,
     false, "inside", -2, -1, false, true⟩ with hpl1
  set stp : VG.Setup := ⟨5, 1000, 500, 4, 0, false⟩ with hstp
  set pls : List (ℕ × VG.Polyline) := [(0, pl0), (1, pl1)] with hpls
  have hmem0 : ∀ {pr : ℕ × VG.Polyline}, pr ∈ pls →
      pr = (0, pl0) ∨ pr = (1, pl1) := by
    intro pr hpr
    rw [hpls] at hpr
    simpa using hpr
  have hpts0 : pl0.points =
      [⟨30, 30, 0⟩, ⟨40, 30, 0⟩, ⟨40, 40, 0⟩, ⟨30, 40, 0⟩] := rfl
  have hpts1 : pl1.points =
      [⟨0, 0, 0⟩, ⟨100, 0, 0⟩, ⟨100, 100, 0⟩, ⟨0, 100, 0⟩] := rfl
  have hcand0 : ∀ pos : VG.Vtx, VG.candidates_for pos 0 pl0 ≠ [] := by
    intro pos
    rw [VG.candidates_for, if_pos (show pl0.closed = true from rfl), hpts0]
    simp
  have hcand1 : ∀ pos : VG.Vtx, VG.candidates_for pos 1 pl1 ≠ [] := by
    intro pos
    rw [VG.candidates_for, if_pos (show pl1.closed = true from rfl), hpts1]
    simp
  have hsel1 : ∃ d k, VG.select_nearest ⟨0, 0, 0⟩ 1 [] pls =
      some (d, 0, k) := by
    refine select_nearest_unique ⟨0, 0, 0⟩ 1 [] pls (0, pl0) ?_ ?_ ?_ ?_
    · rw [hpls]; exact List.mem_cons_self _ _
    · exact ⟨List.not_mem_nil 0, rfl, rfl⟩
    · exact hcand0 _
    · intro pr hpr h
      rcases hmem0 hpr with rfl | rfl
      · rfl
      · exact absurd h.2.1 (by decide)
  obtain ⟨d1, k1, hs1⟩ := hsel1
  have hs2 : ∀ pos : VG.Vtx, VG.select_nearest pos 1 [0] pls = none := by
    intro pos
    refine select_nearest_none pos 1 [0] pls ?_
    intro pr hpr h
    rcases hmem0 hpr with rfl | rfl
    · exact h.1 (by simp)
    · exact absurd h.2.1 (by decide)
  have hsel3 : ∀ pos : VG.Vtx, ∃ d k,
      VG.select_nearest pos 0 [0] pls = some (d, 1, k) := by
    intro pos
    refine select_nearest_unique pos 0 [0] pls (1, pl1) ?_ ?_ ?_ ?_
    · rw [hpls]; exact List.mem_cons_of_mem _ (List.mem_cons_self _ _)
    · exact ⟨by simp, rfl, rfl⟩
    · exact hcand1 _
    · intro pr hpr h
      rcases hmem0 hpr with rfl | rfl
      · exact absurd (show (0 : ℕ) ∈ [0] by simp) h.1
      · rfl
  have hs4 : ∀ pos : VG.Vtx, VG.select_nearest pos 0 [1, 0] pls = none := by
    intro pos
    refine select_nearest_none pos 0 [1, 0] pls ?_
    intro pr hpr h
    rcases hmem0 hpr with rfl | rfl
    · exact h.1 (by simp)
    · exact h.1 (by simp)
  simp only [VG.trace, VG.polylines2gcode]
  rw [show VG.levels_list 1 = [(1 : ℤ), 0] from rfl]
  rw [VG.run_levels]
  simp only []
  rw [run_level_step stp pls 1 pls.length ⟨[], ⟨0, 0, 0⟩, 0⟩ d1 0 k1 hs1]
  simp only []
  rw [run_level_stuck stp pls 1 _ (hs2 _) pls.length]
  simp only []
  obtain ⟨d2, k2, hs3⟩ := hsel3
    (VG.object_block stp 1 0 0 ((pls.lookup 0).getD VG.empty_polyline) k1).2
  rw [VG.run_levels]
  simp only []
  rw [run_level_step stp pls 0 pls.length _ d2 1 k2 hs3]
  simp only []
  rw [run_level_stuck stp pls 0 _ (hs4 _) pls.length]
  simp only []
  rw [VG.run_levels]
  rfl

/-- C1: the sequencer processes levels from `maxOuter` down to 0, so the
milling trace is level-antitone — every polyline of a strictly deeper
nesting level is milled before any polyline of a lower level — and, under
distinct object ids, the object blocks appear in the emitted stream in
exactly the trace order; on the two-rectangle fixture the nested object
(id 0, level 1) is milled before the outer one (id 1, level 0). -/
theorem c1_sequencer_level_order :
    (∀ P : VG.Project,
      (VG.trace P).Pairwise (fun a b => b.2 ≤ a.2) ∧
      ((P.offsets.map Prod.fst).Nodup →
        VG.obj_markers (VG.polylines2gcode P).1 =
          (VG.trace P).map Prod.fst)) ∧
    VG.trace
      ⟨[(0, ⟨[30, 40, 40, 30], [30, 30, 40, 40], [0, 0, 0, 0], true, 1,
             false, "outside", -2, -1, false, true⟩),
        (1, ⟨[0, 100, 100, 0], [0, 0, 100, 100], [0, 0, 0, 0], true, 0,
             false, "inside", -2, -1, false, true⟩)],
       1, ⟨5, 1000, 500, 4, 0, false⟩⟩ = [(0, 1), (1, 0)] := by
  refine ⟨?_, fixture_trace_eval⟩
  intro P
  obtain ⟨hm, hpw, hnd, hmk⟩ := run_levels_spec P.setup P.offsets
    (VG.levels_list P.maxOuter) ⟨[], ⟨0, 0, 0⟩, 0⟩
  constructor
  · exact hpw (levels_list_pairwise P.maxOuter)
  · intro hk
    have hsplit : VG.polylines2gcode P =
        (VG.gcode_begin P.setup ++
          (VG.run_levels P.setup P.offsets (VG.levels_list P.maxOuter)
            ⟨[], ⟨0, 0, 0⟩, 0⟩).1 ++ VG.gcode_end P.setup,
         (VG.run_levels P.setup P.offsets (VG.levels_list P.maxOuter)
            ⟨[], ⟨0, 0, 0⟩, 0⟩).2) := rfl
    rw [VG.trace, hsplit]
    rw [obj_markers_append, obj_markers_append, obj_markers_gcode_begin,
      obj_markers_gcode_end, hmk hk]
    simp

/-- C1 witness: the marker correspondence applied to the two-rectangle
fixture project, whose object ids are distinct. -/
theorem c1_sequencer_level_order_witness :
    VG.obj_markers (VG.polylines2gcode
      ⟨[(0, ⟨[30, 40, 40, 30], [30, 30, 40, 40], [0, 0, 0, 0], true, 1,
             false, "outside", -2, -1, false, true⟩),
        (1, ⟨[0, 100, 100, 0], [0, 0, 100, 100], [0, 0, 0, 0], true, 0,
             false, "inside", -2, -1, false, true⟩)],
       1, ⟨5, 1000, 500, 4, 0, false⟩⟩).1 =
    (VG.trace
      ⟨[(0, ⟨[30, 40, 40, 30], [30, 30, 40, 40], [0, 0, 0, 0], true, 1,
             false, "outside", -2, -1, false, true⟩),
        (1, ⟨[0, 100, 100, 0], [0, 0, 100, 100], [0, 0, 0, 0], true, 0,
             false, "inside", -2, -1, false, true⟩)],
       1, ⟨5, 1000, 500, 4, 0, false⟩⟩).map Prod.fst :=
  (c1_sequencer_level_order.1 _).2 (by simp)

/-- C10: during one run every polyline is milled at most once (the trace
ids are distinct), every trace entry comes from an offsets entry that is
active and whose level is the level being processed, the emitted object
blocks correspond one-to-one to the trace (under distinct ids), and a
polyline id all of whose offsets entries are inactive never appears among
the emitted object blocks. -/
theorem c10_mill_once_active_only (P : VG.Project) :
    ((VG.trace P).map Prod.fst).Nodup ∧
    (∀ pr ∈ VG.trace P, ∃ q ∈ P.offsets,
      q.1 = pr.1 ∧ q.2.level = pr.2 ∧ q.2.millActive = true) ∧
    ((P.offsets.map Prod.fst).Nodup →
      VG.obj_markers (VG.polylines2gcode P).1 =
        (VG.trace P).map Prod.fst) ∧
    (∀ i : ℕ, (P.offsets.map Prod.fst).Nodup →
      (∀ q ∈ P.offsets, q.1 = i → q.2.millActive = false) →
      i ∉ VG.obj_markers (VG.polylines2gcode P).1) := by
  obtain ⟨hm, hpw, hnd, hmk⟩ := run_levels_spec P.setup P.offsets
    (VG.levels_list P.maxOuter) ⟨[], ⟨0, 0, 0⟩, 0⟩
  have hmarkers : (P.offsets.map Prod.fst).Nodup →
      VG.obj_markers (VG.polylines2gcode P).1 =
        (VG.trace P).map Prod.fst := by
    intro hk
    have hsplit : VG.polylines2gcode P =
        (VG.gcode_begin P.setup ++
          (VG.run_levels P.setup P.offsets (VG.levels_list P.maxOuter)
            ⟨[], ⟨0, 0, 0⟩, 0⟩).1 ++ VG.gcode_end P.setup,
         (VG.run_levels P.setup P.offsets (VG.levels_list P.maxOuter)
            ⟨[], ⟨0, 0, 0⟩, 0⟩).2) := rfl
    rw [VG.trace, hsplit]
    rw [obj_markers_append, obj_markers_append, obj_markers_gcode_begin,
      obj_markers_gcode_end, hmk hk]
    simp
  refine ⟨hnd, fun pr hpr => (hm pr hpr).2.2, hmarkers, ?_⟩
  intro i hk hina hmem
  rw [hmarkers hk] at hmem
  obtain ⟨pr, hpr, hpr1⟩ := List.mem_map.mp hmem
  obtain ⟨q, hq, hq1, _, hq3⟩ := (hm pr hpr).2.2
  have : q.2.millActive = false := hina q hq (by rw [hq1, hpr1])
  rw [hq3] at this
  exact absurd this (by decide)

/-- C10 witness: an id with no active offsets entry (here the absent id 5)
emits no object block on the fixture project. -/
theorem c10_mill_once_active_only_witness :
    (5 : ℕ) ∉ VG.obj_markers (VG.polylines2gcode
      ⟨[(0, ⟨[30, 40, 40, 30], [30, 30, 40, 40], [0, 0, 0, 0], true, 1,
             false, "outside", -2, -1, false, true⟩),
        (1, ⟨[0, 100, 100, 0], [0, 0, 100, 100], [0, 0, 0, 0], true, 0,
             false, "inside", -2, -1, false, true⟩)],
       1, ⟨5, 1000, 500, 4, 0, false⟩⟩).1 :=
  (c10_mill_once_active_only _).2.2.2 5 (by simp) (by
    intro q hq hq5
    rcases (show q = (0, ⟨[30, 40, 40, 30], [30, 30, 40, 40], [0, 0, 0, 0],
        true, 1, false, "outside", -2, -1, false, true⟩) ∨
        q = (1, ⟨[0, 100, 100, 0], [0, 0, 100, 100], [0, 0, 0, 0], true, 0,
        false, "inside", -2, -1, false, true⟩) from by simpa using hq) with
      rfl | rfl <;> simp at hq5)
